import Mathlib

/-!
Shallow embedding of the cmpm-121-demo-3 geocoin game core (src/main.ts and
the two unnamed main.ts revisions).  The authoritative revision is
src/unnamed/part_000, which has the Cache/Momento classes, the
CacheManager, the Board, coin collect/deposit and save/load.

JavaScript Maps are modelled as association lists with first-match lookup,
in-place replacement on set, and delete of the matching entry, which is the
observable behaviour of the ES Map for string keys.  JS numbers holding grid
indices and serials are modelled as Int / Nat; geographic coordinates are
modelled as rationals.  The memento strings produced by JSON.stringify are
modelled character for character, and JSON.parse is modelled by a parser of
the exact grammar toMomento emits (on every string toMomento can produce the
model agrees with JSON.parse; on strings outside that grammar the model
reports a parse failure, as JSON.parse does on non-JSON input).
-/

set_option maxHeartbeats 1000000
set_option linter.unusedVariables false

/-- Grid cell identity: integer lat/lng indices (interface Cell). -/
structure Cell where
  i : Int
  j : Int
deriving DecidableEq, Repr

/-- A coin, identified by its origin cell and a serial (interface Coin). -/
structure Coin where
  cell : Cell
  serial : Nat
deriving DecidableEq, Repr

/-- A cache: its cell plus the ordered coin list (class Cache). -/
structure Cache where
  cell : Cell
  coins : List Coin
deriving DecidableEq, Repr

/-! ### Decimal rendering of JS numbers (integer-valued), as produced by
template literals and JSON.stringify. -/

/-- The ASCII digit character for a digit value. -/
def digitChar (d : Nat) : Char := Char.ofNat (48 + d)

/-- Decimal digits of a natural number with a fuel bound on the recursion
depth (any fuel above the value itself is enough). -/
def renderNatAux : Nat → Nat → List Char
  | 0, _ => []
  | fuel + 1, n =>
      if n < 10 then [digitChar n]
      else renderNatAux fuel (n / 10) ++ [digitChar (n % 10)]

/-- Decimal digits of a natural number, most significant first
(the way JS renders an integer-valued number). -/
def renderNatChars (n : Nat) : List Char := renderNatAux (n + 1) n

/-- Decimal rendering of an integer, with a leading minus sign when
negative (JS Number.prototype.toString). -/
def renderIntChars (x : Int) : List Char :=
  if x < 0 then '-' :: renderNatChars (-x).toNat else renderNatChars x.toNat

/-! ### Parsing those decimals back (the number fragment of JSON.parse /
of splitting a cell key). -/

/-- Consume a run of ASCII digits, accumulating the value. -/
def parseDigits : List Char → Nat → Nat × List Char
  | c :: rest, acc =>
      if c.isDigit then parseDigits rest (acc * 10 + (c.toNat - 48))
      else (acc, c :: rest)
  | [], acc => (acc, [])

/-- Parse a natural number (at least one digit required). -/
def parseNatNum (cs : List Char) : Option (Nat × List Char) :=
  match cs with
  | c :: rest => if c.isDigit then some (parseDigits rest (c.toNat - 48)) else none
  | [] => none

/-- Parse an optionally negated integer literal. -/
def parseIntNum (cs : List Char) : Option (Int × List Char) :=
  match cs with
  | c :: rest =>
      if c = '-' then (parseNatNum rest).map (fun p => (-(p.1 : Int), p.2))
      else (parseNatNum (c :: rest)).map (fun p => ((p.1 : Int), p.2))
  | [] => none

/-- Heads that are not a digit stop the digit scanner. -/
def headNotDigit : List Char → Prop
  | [] => True
  | c :: _ => c.isDigit = false

theorem digitChar_isDigit {d : Nat} (h : d < 10) : (digitChar d).isDigit = true := by
  interval_cases d <;> decide

theorem digitChar_toNat {d : Nat} (h : d < 10) : (digitChar d).toNat = 48 + d := by
  interval_cases d <;> decide

theorem digitChar_ne_dash {d : Nat} (h : d < 10) : digitChar d ≠ '-' := by
  interval_cases d <;> decide

theorem renderNatAux_fuel : ∀ (fuel fuel' n : Nat), n < fuel → n < fuel' →
    renderNatAux fuel n = renderNatAux fuel' n := by
  intro fuel
  induction fuel with
  | zero => intro fuel' n h; omega
  | succ f ih =>
      intro fuel' n h h'
      cases fuel' with
      | zero => omega
      | succ f' =>
          rw [renderNatAux, renderNatAux]
          by_cases h10 : n < 10
          · rw [if_pos h10, if_pos h10]
          · rw [if_neg h10, if_neg h10]
            have hlt : n / 10 < n := Nat.div_lt_self (by omega) (by omega)
            rw [ih f' (n / 10) (by omega) (by omega)]

theorem renderNatChars_eq (n : Nat) : renderNatChars n =
    if n < 10 then [digitChar n]
    else renderNatChars (n / 10) ++ [digitChar (n % 10)] := by
  rw [renderNatChars, renderNatAux]
  by_cases h10 : n < 10
  · rw [if_pos h10, if_pos h10]
  · rw [if_neg h10, if_neg h10, renderNatChars]
    have hlt : n / 10 < n := Nat.div_lt_self (by omega) (by omega)
    rw [renderNatAux_fuel n (n / 10 + 1) (n / 10) (by omega) (by omega)]

theorem renderNatChars_nonempty (n : Nat) : renderNatChars n ≠ [] := by
  rw [renderNatChars_eq]
  split
  · simp
  · simp

theorem parseDigits_stop (cs : List Char) (acc : Nat) (h : headNotDigit cs) :
    parseDigits cs acc = (acc, cs) := by
  cases cs with
  | nil => rfl
  | cons c rest =>
      simp only [headNotDigit] at h
      simp [parseDigits, h]

theorem parseDigits_render (n : Nat) : ∀ (acc : Nat) (rest : List Char),
    parseDigits (renderNatChars n ++ rest) acc =
      parseDigits rest (acc * 10 ^ (renderNatChars n).length + n) := by
  induction n using Nat.strong_induction_on with
  | _ n ih =>
    intro acc rest
    rw [renderNatChars_eq]
    by_cases h : n < 10
    · simp only [h, if_true, List.cons_append, List.nil_append, List.length_cons,
        List.length_nil]
      rw [parseDigits]
      simp [digitChar_isDigit h, digitChar_toNat h]
    · simp only [h, if_false]
      rw [List.append_assoc]
      rw [ih (n / 10) (Nat.div_lt_self (by omega) (by omega)) acc
        ([digitChar (n % 10)] ++ rest)]
      have hd : (n % 10) < 10 := Nat.mod_lt _ (by omega)
      simp only [List.singleton_append]
      rw [parseDigits]
      simp only [digitChar_isDigit hd, if_true, digitChar_toNat hd]
      congr 1
      have hlen : (renderNatChars (n / 10) ++ [digitChar (n % 10)]).length
          = (renderNatChars (n / 10)).length + 1 := by simp
      rw [hlen, pow_succ, ← mul_assoc]
      set A := acc * 10 ^ (renderNatChars (n / 10)).length with hA
      omega

theorem parseNatNum_render (n : Nat) : ∀ (rest : List Char),
    parseNatNum (renderNatChars n ++ rest) = some (parseDigits rest n) := by
  induction n using Nat.strong_induction_on with
  | _ n ih =>
    intro rest
    rw [renderNatChars_eq]
    by_cases h : n < 10
    · simp only [h, if_true, List.cons_append, List.nil_append]
      rw [parseNatNum]
      simp [digitChar_isDigit h, digitChar_toNat h, parseDigits]
    · simp only [h, if_false]
      rw [List.append_assoc]
      rw [ih (n / 10) (Nat.div_lt_self (by omega) (by omega)) ([digitChar (n % 10)] ++ rest)]
      have hd : (n % 10) < 10 := Nat.mod_lt _ (by omega)
      simp only [List.singleton_append]
      rw [parseDigits]
      simp only [digitChar_isDigit hd, if_true, digitChar_toNat hd]
      congr 2
      omega

theorem parseNatNum_render_stop (n : Nat) (rest : List Char) (h : headNotDigit rest) :
    parseNatNum (renderNatChars n ++ rest) = some (n, rest) := by
  rw [parseNatNum_render, parseDigits_stop _ _ h]

theorem renderNatChars_head_digit (n : Nat) :
    ∃ c cs, renderNatChars n = c :: cs ∧ c.isDigit = true := by
  induction n using Nat.strong_induction_on with
  | _ n ih =>
    rw [renderNatChars_eq]
    by_cases h : n < 10
    · exact ⟨digitChar n, [], by simp [h], digitChar_isDigit h⟩
    · obtain ⟨c, cs, hc, hdig⟩ := ih (n / 10) (Nat.div_lt_self (by omega) (by omega))
      refine ⟨c, cs ++ [digitChar (n % 10)], ?_, hdig⟩
      simp [h, hc]

theorem parseIntNum_render (x : Int) (rest : List Char) (h : headNotDigit rest) :
    parseIntNum (renderIntChars x ++ rest) = some (x, rest) := by
  rw [renderIntChars]
  by_cases hx : x < 0
  · simp only [hx, if_true, List.cons_append]
    rw [parseIntNum]
    simp only [if_pos rfl, parseNatNum_render_stop _ _ h, Option.map_some]
    have : ((-x).toNat : Int) = -x := Int.toNat_of_nonneg (by omega)
    simp [this]
  · simp only [hx, if_false]
    obtain ⟨c, cs, hc, hdig⟩ := renderNatChars_head_digit x.toNat
    rw [hc]
    simp only [List.cons_append]
    rw [parseIntNum]
    have hcd : c ≠ '-' := by
      intro hdash
      rw [hdash] at hdig
      simp at hdig
    simp only [if_neg hcd, ← List.cons_append, ← hc,
      parseNatNum_render_stop _ _ h, Option.map_some]
    have : (x.toNat : Int) = x := Int.toNat_of_nonneg (by omega)
    simp [this]

/-! ### The memento codec.

Cache.toMomento is JSON.stringify of the record with fields cell and coins
in declaration order; Cache.fromMomento is JSON.parse followed by reading
the cell and coins fields.  The brace characters are named below to keep
the encoding readable. -/

/-- Open brace character emitted by JSON.stringify. -/
def obr : Char := Char.ofNat 123

/-- Close brace character emitted by JSON.stringify. -/
def cbr : Char := Char.ofNat 125

/-- Double-quote character emitted by JSON.stringify. -/
def qm : Char := Char.ofNat 34

/-- JSON object-key prefix for the field i of a Cell. -/
def litI : List Char := [obr, qm, 'i', qm, ':']

/-- JSON object-key prefix for the field j of a Cell. -/
def litJ : List Char := [',', qm, 'j', qm, ':']

/-- JSON object-key prefix for the field cell of a Coin or Cache. -/
def litCell : List Char := [obr, qm, 'c', 'e', 'l', 'l', qm, ':']

/-- JSON object-key prefix for the field serial of a Coin. -/
def litSerial : List Char := [',', qm, 's', 'e', 'r', 'i', 'a', 'l', qm, ':']

/-- JSON object-key prefix for the field coins of a Cache. -/
def litCoins : List Char := [',', qm, 'c', 'o', 'i', 'n', 's', qm, ':']

/-- JSON.stringify of a Cell value. -/
def encCell (c : Cell) : List Char :=
  litI ++ renderIntChars c.i ++ litJ ++ renderIntChars c.j ++ [cbr]

/-- JSON.stringify of a Coin value. -/
def encCoin (cn : Coin) : List Char :=
  litCell ++ encCell cn.cell ++ litSerial ++ renderNatChars cn.serial ++ [cbr]

/-- Tail of the JSON array encoding of a coin list: a comma-separated run
of the remaining coins followed by the closing bracket. -/
def encCoinsRest : List Coin → List Char
  | [] => [']']
  | c :: rest => ',' :: (encCoin c ++ encCoinsRest rest)

/-- JSON.stringify of a coin array. -/
def encCoins : List Coin → List Char
  | [] => ['[', ']']
  | c :: rest => '[' :: (encCoin c ++ encCoinsRest rest)

/-- Cache.toMomento: JSON.stringify of the record with the cell and coins
fields (src/unnamed/part_000 lines 34-36). -/
def toMomento (c : Cache) : String :=
  String.mk (litCell ++ encCell c.cell ++ litCoins ++ encCoins c.coins ++ [cbr])

/-- Consume an expected literal character run, returning the remainder,
or fail the parse. -/
def stripLit : List Char → List Char → Option (List Char)
  | [], cs => some cs
  | p :: ps, c :: cs => if c = p then stripLit ps cs else none
  | _ :: _, [] => none

/-- Parse the JSON encoding of a Cell. -/
def parseCellChars (cs : List Char) : Option (Cell × List Char) := do
  let r1 ← stripLit litI cs
  let (i, r2) ← parseIntNum r1
  let r3 ← stripLit litJ r2
  let (j, r4) ← parseIntNum r3
  let r5 ← stripLit [cbr] r4
  pure (⟨i, j⟩, r5)

/-- Parse the JSON encoding of a Coin. -/
def parseCoinChars (cs : List Char) : Option (Coin × List Char) := do
  let r1 ← stripLit litCell cs
  let (cl, r2) ← parseCellChars r1
  let r3 ← stripLit litSerial r2
  let (s, r4) ← parseNatNum r3
  let r5 ← stripLit [cbr] r4
  pure (⟨cl, s⟩, r5)

/-- Parse the comma-separated continuation of a JSON coin array, with fuel
bounding the number of elements. -/
def parseCoinsAux : Nat → List Coin → List Char → Option (List Coin × List Char)
  | 0, _, _ => none
  | fuel + 1, acc, cs =>
    match cs with
    | c :: rest =>
        if c = ']' then some (acc.reverse, rest)
        else if c = ',' then do
          let (cn, r) ← parseCoinChars rest
          parseCoinsAux fuel (cn :: acc) r
        else none
    | [] => none

/-- Parse a JSON coin array. -/
def parseCoinsChars (cs : List Char) : Option (List Coin × List Char) :=
  match cs with
  | c :: rest =>
      if c = '[' then
        match rest with
        | c2 :: _ =>
            if c2 = ']' then some ([], rest.tail)
            else do
              let (cn, r) ← parseCoinChars rest
              parseCoinsAux (r.length + 1) [cn] r
        | [] => none
      else none
  | [] => none

/-- Cache.fromMomento on the character list: JSON.parse of the memento
followed by reading the cell and coins fields; parse failures (JSON.parse
throwing) are the none result (src/unnamed/part_000 lines 39-43). -/
def fromMomentoChars (cs : List Char) : Option Cache := do
  let r1 ← stripLit litCell cs
  let (cl, r2) ← parseCellChars r1
  let r3 ← stripLit litCoins r2
  let (coins, r4) ← parseCoinsChars r3
  let r5 ← stripLit [cbr] r4
  match r5 with
  | [] => pure ⟨cl, coins⟩
  | _ => none

/-- Cache.fromMomento on the memento string. -/
def fromMomento (s : String) : Option Cache := fromMomentoChars s.data

/-! ### Codec round-trip lemmas. -/

theorem stripLit_append (p cs : List Char) : stripLit p (p ++ cs) = some cs := by
  induction p with
  | nil => rfl
  | cons c ps ih => simp [stripLit, ih]

theorem headNotDigit_cbr (rest : List Char) : headNotDigit (cbr :: rest) := by
  show cbr.isDigit = false
  decide

theorem parseCellChars_enc (c : Cell) (rest : List Char) :
    parseCellChars (encCell c ++ rest) = some (c, rest) := by
  rw [encCell, parseCellChars]
  simp only [List.append_assoc, Option.bind_eq_bind, stripLit_append, Option.some_bind]
  have h1 : headNotDigit (litJ ++ (renderIntChars c.j ++ ([cbr] ++ rest))) := by
    rw [litJ]
    show (',').isDigit = false
    decide
  rw [parseIntNum_render c.i _ h1]
  simp only [Option.some_bind]
  rw [stripLit_append]
  simp only [Option.some_bind]
  rw [parseIntNum_render c.j _ (by simpa using headNotDigit_cbr rest)]
  simp only [Option.some_bind, List.singleton_append]
  rw [show ((cbr :: rest) = [cbr] ++ rest) from rfl, stripLit_append]
  rfl

theorem parseCoinChars_enc (cn : Coin) (rest : List Char) :
    parseCoinChars (encCoin cn ++ rest) = some (cn, rest) := by
  rw [encCoin, parseCoinChars]
  simp only [List.append_assoc, Option.bind_eq_bind, stripLit_append, Option.some_bind]
  rw [parseCellChars_enc]
  simp only [Option.some_bind]
  rw [stripLit_append]
  simp only [Option.some_bind]
  rw [parseNatNum_render_stop cn.serial _ (by simpa using headNotDigit_cbr rest)]
  simp only [Option.some_bind, List.singleton_append]
  rw [show ((cbr :: rest) = [cbr] ++ rest) from rfl, stripLit_append]
  rfl

theorem encCoin_length_pos (cn : Coin) : 0 < (encCoin cn).length := by
  rw [encCoin]
  simp [litCell]

theorem encCoinsRest_length (cs : List Coin) :
    cs.length < (encCoinsRest cs).length := by
  induction cs with
  | nil => simp [encCoinsRest]
  | cons c rest ih =>
      rw [encCoinsRest]
      simp only [List.length_cons, List.length_append]
      have := encCoin_length_pos c
      omega

theorem parseCoinsAux_enc (cs : List Coin) : ∀ (fuel : Nat) (acc : List Coin)
    (rest : List Char), cs.length < fuel →
    parseCoinsAux fuel acc (encCoinsRest cs ++ rest) = some (acc.reverse ++ cs, rest) := by
  induction cs with
  | nil =>
      intro fuel acc rest hf
      match fuel, hf with
      | fuel + 1, _ =>
        rw [encCoinsRest]
        simp [parseCoinsAux]
  | cons c cs' ih =>
      intro fuel acc rest hf
      match fuel, hf with
      | fuel + 1, hf =>
        rw [encCoinsRest]
        simp only [List.cons_append, parseCoinsAux, List.append_assoc]
        have hne : ¬((',' : Char) = ']') := by decide
        simp only [hne, if_false, if_true, if_pos rfl, Option.bind_eq_bind]
        rw [parseCoinChars_enc]
        simp only [Option.some_bind]
        rw [ih fuel (c :: acc) rest (by simpa using hf)]
        simp

theorem parseCoinsChars_enc (cs : List Coin) (rest : List Char) :
    parseCoinsChars (encCoins cs ++ rest) = some (cs, rest) := by
  cases cs with
  | nil => simp [encCoins, parseCoinsChars]
  | cons c cs' =>
      rw [encCoins]
      have hco : ∃ t, encCoin c = obr :: t := by
        rw [encCoin, litCell]
        exact ⟨_, rfl⟩
      obtain ⟨t1, hco⟩ := hco
      simp only [List.cons_append, List.append_assoc, parseCoinsChars]
      simp only [if_true]
      rw [hco]
      simp only [List.cons_append]
      have hobr : ¬(obr = ']') := by decide
      rw [if_neg hobr]
      simp only [Option.bind_eq_bind, ← List.cons_append, ← hco]
      rw [parseCoinChars_enc]
      simp only [Option.some_bind]
      rw [parseCoinsAux_enc cs' _ [c] rest ?hfuel]
      · simp
      case hfuel =>
        have h1 := encCoinsRest_length cs'
        have h2 : (encCoinsRest cs' ++ rest).length
            = (encCoinsRest cs').length + rest.length := by simp
        omega

/-- Round-trip of the memento codec: parsing back a serialized cache
recovers the cell and the coin list exactly. -/
theorem fromMomento_toMomento (c : Cache) : fromMomento (toMomento c) = some c := by
  rw [toMomento, fromMomento]
  show fromMomentoChars (litCell ++ encCell c.cell ++ litCoins ++ encCoins c.coins ++ [cbr])
      = some c
  rw [fromMomentoChars]
  simp only [List.append_assoc, stripLit_append, Option.bind_eq_bind, Option.some_bind]
  rw [parseCellChars_enc]
  simp only [Option.some_bind]
  rw [stripLit_append]
  simp only [Option.some_bind]
  rw [parseCoinsChars_enc]
  simp only [Option.some_bind]
  simp [stripLit]

/-! ### Cell keys.

Both the CacheManager and the Board key their maps by the template string
of the two indices. -/

/-- The string key of a cell (CacheManager.getCellKey and the Board key). -/
def cellKey (c : Cell) : String :=
  String.mk (renderIntChars c.i ++ ',' :: renderIntChars c.j)

/-- Parse a cell key back into its indices (used only to prove cellKey
injective; getCellFromKey in the source does the same by splitting on the
comma). -/
def keyParseChars (cs : List Char) : Option Cell := do
  let (i, r1) ← parseIntNum cs
  match r1 with
  | c :: r2 =>
      if c = ',' then do
        let (j, r3) ← parseIntNum r2
        match r3 with
        | [] => pure ⟨i, j⟩
        | _ => none
      else none
  | [] => none

theorem keyParseChars_cellKey (c : Cell) :
    keyParseChars (cellKey c).data = some c := by
  show keyParseChars (renderIntChars c.i ++ ',' :: renderIntChars c.j) = some c
  rw [keyParseChars]
  have h1 : headNotDigit (',' :: renderIntChars c.j) := by
    show (',').isDigit = false
    decide
  rw [show (renderIntChars c.i ++ ',' :: renderIntChars c.j
      = renderIntChars c.i ++ (',' :: renderIntChars c.j)) from rfl]
  rw [parseIntNum_render c.i _ h1]
  simp only [Option.bind_eq_bind, Option.some_bind, if_pos rfl]
  rw [show (renderIntChars c.j = renderIntChars c.j ++ []) from by simp]
  rw [parseIntNum_render c.j [] trivial]
  simp

theorem cellKey_injective : Function.Injective cellKey := by
  intro a b h
  have ha := keyParseChars_cellKey a
  have hb := keyParseChars_cellKey b
  rw [h] at ha
  rw [ha] at hb
  exact (Option.some_injective _ hb)

/-! ### The JS Map model: association lists with first-match semantics. -/

/-- Map.get: the value of the first entry with the key, if any. -/
def mapGet {α : Type} : List (String × α) → String → Option α
  | [], _ => none
  | e :: rest, k => if e.1 = k then some e.2 else mapGet rest k

/-- Map.has. -/
def mapHas {α : Type} (m : List (String × α)) (k : String) : Bool :=
  (mapGet m k).isSome

/-- Map.set: replace the value in place if the key exists, else append. -/
def mapSet {α : Type} : List (String × α) → String → α → List (String × α)
  | [], k, v => [(k, v)]
  | e :: rest, k, v => if e.1 = k then (k, v) :: rest else e :: mapSet rest k v

/-- Map.delete: remove the entry with the key. -/
def mapDelete {α : Type} : List (String × α) → String → List (String × α)
  | [], _ => []
  | e :: rest, k => if e.1 = k then rest else e :: mapDelete rest k

theorem mapGet_set_self {α : Type} (m : List (String × α)) (k : String) (v : α) :
    mapGet (mapSet m k v) k = some v := by
  induction m with
  | nil => simp [mapSet, mapGet]
  | cons e rest ih =>
      by_cases h : e.1 = k
      · simp [mapSet, h, mapGet]
      · simp [mapSet, h, mapGet, ih]

theorem mapGet_set_ne {α : Type} (m : List (String × α)) (k k' : String) (v : α)
    (h : k ≠ k') : mapGet (mapSet m k v) k' = mapGet m k' := by
  induction m with
  | nil => simp [mapSet, mapGet, h]
  | cons e rest ih =>
      rw [mapSet]
      by_cases he : e.1 = k
      · rw [if_pos he, mapGet, mapGet]
        have hek : ¬ e.1 = k' := by rw [he]; exact h
        rw [if_neg h, if_neg hek]
      · rw [if_neg he, mapGet, mapGet]
        by_cases he' : e.1 = k'
        · rw [if_pos he', if_pos he']
        · rw [if_neg he', if_neg he', ih]

theorem mapGet_eq_none_of_not_mem {α : Type} {m : List (String × α)} {k : String}
    (h : k ∉ m.map Prod.fst) : mapGet m k = none := by
  induction m with
  | nil => rfl
  | cons e rest ih =>
      simp only [List.map_cons, List.mem_cons, not_or] at h
      rw [mapGet, if_neg (fun he => h.1 he.symm), ih h.2]

theorem mapGet_isSome_iff_mem {α : Type} (m : List (String × α)) (k : String) :
    (mapGet m k).isSome = true ↔ k ∈ m.map Prod.fst := by
  induction m with
  | nil => simp [mapGet]
  | cons e rest ih =>
      rw [mapGet]
      by_cases he : e.1 = k
      · simp [he]
      · simp only [if_neg he, ih, List.map_cons, List.mem_cons]
        constructor
        · exact Or.inr
        · rintro (h | h)
          · exact absurd h.symm he
          · exact h

theorem mapGet_mem {α : Type} {m : List (String × α)} {k : String} {v : α}
    (h : mapGet m k = some v) : (k, v) ∈ m := by
  induction m with
  | nil => simp [mapGet] at h
  | cons e rest ih =>
      rw [mapGet] at h
      by_cases he : e.1 = k
      · rw [if_pos he] at h
        have hv : v = e.2 := by injection h with h2; exact h2.symm
        have hkv : (k, v) = e := by
          obtain ⟨e1, e2⟩ := e
          simp only at he hv
          rw [hv, ← he]
        rw [hkv]
        exact List.mem_cons_self _ _
      · rw [if_neg he] at h
        exact List.mem_cons_of_mem _ (ih h)

theorem mem_mapGet {α : Type} {m : List (String × α)} {k : String} {v : α}
    (hnd : (m.map Prod.fst).Nodup) (h : (k, v) ∈ m) : mapGet m k = some v := by
  induction m with
  | nil => simp at h
  | cons e rest ih =>
      simp only [List.map_cons, List.nodup_cons] at hnd
      rcases List.mem_cons.mp h with he | hr
      · rw [← he, mapGet, if_pos rfl]
      · rw [mapGet]
        by_cases hek : e.1 = k
        · exfalso
          apply hnd.1
          rw [hek]
          exact List.mem_map.mpr ⟨(k, v), hr, rfl⟩
        · rw [if_neg hek]
          exact ih hnd.2 hr

theorem mapSet_keys_mem {α : Type} {m : List (String × α)} {k : String} {v : α}
    {x : String} (h : x ∈ (mapSet m k v).map Prod.fst) :
    x ∈ m.map Prod.fst ∨ x = k := by
  induction m with
  | nil => simp [mapSet] at h; simp [h]
  | cons e rest ih =>
      rw [mapSet] at h
      by_cases he : e.1 = k
      · rw [if_pos he] at h
        simp only [List.map_cons, List.mem_cons] at h ⊢
        rcases h with h | h
        · exact Or.inr h
        · exact Or.inl (Or.inr h)
      · rw [if_neg he] at h
        simp only [List.map_cons, List.mem_cons] at h ⊢
        rcases h with h | h
        · exact Or.inl (Or.inl h)
        · rcases ih h with hh | hh
          · exact Or.inl (Or.inr hh)
          · exact Or.inr hh

theorem mapSet_nodup {α : Type} {m : List (String × α)} (k : String) (v : α)
    (hnd : (m.map Prod.fst).Nodup) : ((mapSet m k v).map Prod.fst).Nodup := by
  induction m with
  | nil => simp [mapSet]
  | cons e rest ih =>
      simp only [List.map_cons, List.nodup_cons] at hnd
      rw [mapSet]
      by_cases he : e.1 = k
      · rw [if_pos he]
        simp only [List.map_cons, List.nodup_cons]
        exact ⟨he ▸ hnd.1, hnd.2⟩
      · rw [if_neg he]
        simp only [List.map_cons, List.nodup_cons]
        refine ⟨fun hmem => ?_, ih hnd.2⟩
        rcases mapSet_keys_mem hmem with hh | hh
        · exact hnd.1 hh
        · exact he hh

theorem mapDelete_keys_mem {α : Type} {m : List (String × α)} {k : String}
    {x : String} (h : x ∈ (mapDelete m k).map Prod.fst) : x ∈ m.map Prod.fst := by
  induction m with
  | nil => simp [mapDelete] at h
  | cons e rest ih =>
      rw [mapDelete] at h
      by_cases he : e.1 = k
      · rw [if_pos he] at h
        simp only [List.map_cons, List.mem_cons]
        exact Or.inr h
      · rw [if_neg he] at h
        simp only [List.map_cons, List.mem_cons] at h ⊢
        rcases h with h | h
        · exact Or.inl h
        · exact Or.inr (ih h)

theorem mapDelete_nodup {α : Type} {m : List (String × α)} (k : String)
    (hnd : (m.map Prod.fst).Nodup) : ((mapDelete m k).map Prod.fst).Nodup := by
  induction m with
  | nil => simp [mapDelete]
  | cons e rest ih =>
      simp only [List.map_cons, List.nodup_cons] at hnd
      rw [mapDelete]
      by_cases he : e.1 = k
      · rw [if_pos he]
        exact hnd.2
      · rw [if_neg he]
        simp only [List.map_cons, List.nodup_cons]
        exact ⟨fun hmem => hnd.1 (mapDelete_keys_mem hmem), ih hnd.2⟩

theorem mapGet_delete_ne {α : Type} (m : List (String × α)) (k k' : String)
    (h : k ≠ k') : mapGet (mapDelete m k) k' = mapGet m k' := by
  induction m with
  | nil => simp [mapDelete, mapGet]
  | cons e rest ih =>
      rw [mapDelete]
      by_cases he : e.1 = k
      · rw [if_pos he, mapGet]
        have hek : ¬ e.1 = k' := by rw [he]; exact h
        rw [if_neg hek]
      · rw [if_neg he, mapGet, mapGet]
        by_cases he' : e.1 = k'
        · rw [if_pos he', if_pos he']
        · rw [if_neg he', if_neg he', ih]

theorem mapGet_delete_self {α : Type} (m : List (String × α)) (k : String)
    (hnd : (m.map Prod.fst).Nodup) : mapGet (mapDelete m k) k = none := by
  induction m with
  | nil => rfl
  | cons e rest ih =>
      simp only [List.map_cons, List.nodup_cons] at hnd
      rw [mapDelete]
      by_cases he : e.1 = k
      · rw [if_pos he]
        exact mapGet_eq_none_of_not_mem (he ▸ hnd.1)
      · rw [if_neg he, mapGet, if_neg he]
        exact ih hnd.2

/-- Sum of a valuation over the entries of a map. -/
def sumBy {α : Type} (f : α → Int) (m : List (String × α)) : Int :=
  (m.map (fun e => f e.2)).sum

theorem sumBy_set {α : Type} (f : α → Int) {m : List (String × α)} {k : String}
    {c : α} (v : α) (h : mapGet m k = some c) :
    sumBy f (mapSet m k v) = sumBy f m - f c + f v := by
  induction m with
  | nil => simp [mapGet] at h
  | cons e rest ih =>
      rw [mapGet] at h
      rw [mapSet]
      by_cases he : e.1 = k
      · rw [if_pos he] at h
        rw [if_pos he]
        have : f c = f e.2 := by
          injection h with h2
          rw [h2]
        simp only [sumBy, List.map_cons, List.sum_cons, this]
        ring
      · rw [if_neg he] at h
        rw [if_neg he]
        simp only [sumBy, List.map_cons, List.sum_cons] at ih ⊢
        rw [ih h]
        ring

/-! ### Geographic constants and the Board. -/

/-- Geographic coordinate, modelled as exact rationals. -/
structure LatLng where
  lat : Rat
  lng : Rat
deriving DecidableEq, Repr

/-- Size of each cell in degrees (TILE_DEGREES = 0.0001). -/
def TILE_DEGREES : Rat := 1 / 10000

/-- Cache spawn probability (CACHE_SPAWN_PROBABILITY = 0.1). -/
def CACHE_SPAWN_PROBABILITY : Rat := 1 / 10

/-- Visibility radius in cells (NEIGHBORHOOD_SIZE = 8). -/
def NEIGHBORHOOD_SIZE : Nat := 8

/-- Null Island, the grid origin (0 N, 0 E). -/
def NULL_ISLAND : LatLng := ⟨0, 0⟩

/-- The initial player position (OAKES_CLASSROOM). -/
def OAKES_CLASSROOM : LatLng :=
  ⟨3698949379578401 / 100000000000000, -12206277128548504 / 100000000000000⟩

/-- The flyweight board: its interning table of known cells, keyed by the
cell key string (class Board). -/
structure Board where
  knownCells : List (String × Cell)
deriving Repr

/-- Board.getCanonicalCell: registers the cell under its key when absent,
then returns the registered cell; also returns the updated board since the
table is mutable state. -/
def getCanonicalCell (b : Board) (cell : Cell) : Cell × Board :=
  let key := cellKey cell
  let known := if mapHas b.knownCells key then b.knownCells
               else mapSet b.knownCells key cell
  ((mapGet known key).getD cell, ⟨known⟩)

/-- Board.getCellForPoint: floor-divide the offsets from Null Island by the
tile size, then canonicalize. -/
def getCellForPoint (b : Board) (point : LatLng) : Cell × Board :=
  let i : Int := ⌊(point.lat - NULL_ISLAND.lat) / TILE_DEGREES⌋
  let j : Int := ⌊(point.lng - NULL_ISLAND.lng) / TILE_DEGREES⌋
  getCanonicalCell b ⟨i, j⟩

/-- A board is well formed when every interning entry is stored under the
key of the cell it holds; the Board only ever stores a cell under its own
key, so this holds for every board the program builds. -/
def BoardWF (b : Board) : Prop :=
  ∀ e ∈ b.knownCells, e.1 = cellKey e.2

theorem mapSet_mem {α : Type} {m : List (String × α)} {k : String} {v : α}
    {e : String × α} (h : e ∈ mapSet m k v) : e ∈ m ∨ e = (k, v) := by
  induction m with
  | nil => simp [mapSet] at h; simp [h]
  | cons e' rest ih =>
      rw [mapSet] at h
      by_cases he : e'.1 = k
      · rw [if_pos he] at h
        rcases List.mem_cons.mp h with h1 | h1
        · exact Or.inr h1
        · exact Or.inl (List.mem_cons_of_mem _ h1)
      · rw [if_neg he] at h
        rcases List.mem_cons.mp h with h1 | h1
        · exact Or.inl (h1 ▸ List.mem_cons_self _ _)
        · rcases ih h1 with h2 | h2
          · exact Or.inl (List.mem_cons_of_mem _ h2)
          · exact Or.inr h2

theorem getCanonicalCell_wf {b : Board} (cell : Cell) (hb : BoardWF b) :
    (getCanonicalCell b cell).1 = cell ∧ BoardWF (getCanonicalCell b cell).2 := by
  rw [getCanonicalCell]
  simp only
  by_cases h : mapHas b.knownCells (cellKey cell) = true
  · rw [if_pos h]
    rw [mapHas] at h
    obtain ⟨c, hc⟩ := Option.isSome_iff_exists.mp h
    have hmem := mapGet_mem hc
    have hck := hb _ hmem
    simp only at hck
    have hcc : c = cell := cellKey_injective hck.symm
    refine ⟨?_, hb⟩
    rw [hc, hcc]
    rfl
  · rw [if_neg h]
    refine ⟨?_, ?_⟩
    · rw [mapGet_set_self]
      rfl
    · intro e he
      rcases mapSet_mem he with h1 | h1
      · exact hb _ h1
      · rw [h1]

/-! ### Deterministic generation. -/

/-- generateCache (src/unnamed/part_000 lines 211-221): consult the
deterministic generator on the cell-key seed to decide presence, and on the
seed with a coins suffix to size the coin list; coins get serials 0,1,2,...
and the generation cell.  The luck function itself lives in luck.ts, which
is not among the sources, so it is taken as an explicit parameter: the spec
contract (4.1) makes it a pure function from a seed string into [0,1). -/
def generateCache (luck : String → Rat) (cell : Cell) : Option Cache :=
  if luck (cellKey cell) < CACHE_SPAWN_PROBABILITY then
    let coinCount : Nat := (⌊luck (cellKey cell ++ ",coins") * 10⌋).toNat
    some ⟨cell, (List.range coinCount).map (fun serial => ⟨cell, serial⟩)⟩
  else none

/-- Modelled from the spec: luck.ts is absent from src, so this is one
deterministic assignment of the generator satisfying the values the spec
scenario stipulates for the two seeds of cell (0,0); every other seed gets
a value above the spawn threshold. -/
def luckDemo : String → Rat := fun s =>
  if s = "0,0" then 1 / 20
  else if s = "0,0,coins" then 37 / 100
  else 1 / 2

/-! ### The cache lifecycle manager. -/

/-- The mutable state of a CacheManager together with the board it holds
(class CacheManager: cacheStates is the dormant memento store, activeCaches
the active set). -/
structure CMState where
  board : Board
  cacheStates : List (String × String)
  activeCaches : List (String × Cache)
deriving Repr

/-- Count-bounded ascending run of integers starting at lo. -/
def intRangeAux (lo : Int) : Nat → List Int
  | 0 => []
  | n + 1 => lo :: intRangeAux (lo + 1) n

/-- The inclusive integer range from lo to hi, in iteration order of the
for loops. -/
def intRange (lo hi : Int) : List Int := intRangeAux lo (hi + 1 - lo).toNat

/-- The nested loop order of updateVisibleCaches: all (i, j) with i outer,
j inner. -/
def prodList : List Int → List Int → List (Int × Int)
  | [], _ => []
  | i :: is, ys => ys.map (fun j => (i, j)) ++ prodList is ys

/-- One iteration of the visible-cell loop of updateVisibleCaches
(src/unnamed/part_000 lines 93-117): canonicalize the cell; skip it when
already active; else restore from the memento store when a memento exists
(JSON.parse throwing on a bad memento aborts the whole update, reported as
the some result in the second component); else attempt generation. -/
def activateOne (luck : String → Rat) (st : CMState) (ij : Int × Int) :
    CMState × Option String :=
  let canon := getCanonicalCell st.board ⟨ij.1, ij.2⟩
  let cell := canon.1
  let st := { st with board := canon.2 }
  let key := cellKey cell
  if mapHas st.activeCaches key then (st, none)
  else
    match mapGet st.cacheStates key with
    | some m =>
        match fromMomento m with
        | some data =>
            ({ st with activeCaches := mapSet st.activeCaches key ⟨data.cell, data.coins⟩ },
              none)
        | none => (st, some "SyntaxError")
    | none =>
        match generateCache luck cell with
        | some g =>
            ({ st with activeCaches := mapSet st.activeCaches key ⟨g.cell, g.coins⟩ },
              none)
        | none => (st, none)

/-- The visible-cell loop, aborting like a thrown exception: the state
mutated so far is kept and the remaining cells are not visited. -/
def activateAll (luck : String → Rat) : List (Int × Int) → CMState →
    CMState × Option String
  | [], st => (st, none)
  | ij :: rest, st =>
      match activateOne luck st ij with
      | (st', none) => activateAll luck rest st'
      | (st', some e) => (st', some e)

/-- The window test of the eviction phase of updateVisibleCaches (line
124): the cache cell indices fall outside the window bounds (the map-layer
removal it guards is presentation only). -/
def evictTest (minI maxI minJ maxJ : Int) (e : String × Cache) : Bool :=
  e.2.cell.i < minI || e.2.cell.i > maxI ||
    e.2.cell.j < minJ || e.2.cell.j > maxJ

/-- The eviction phase of updateVisibleCaches (lines 119-142), continued:
collect the active entries whose cell fails the window test, serialize each
into the memento store, then delete each from the active set. -/
def evictOutside (st : CMState) (minI maxI minJ maxJ : Int) : CMState :=
  let toRemove := st.activeCaches.filter (evictTest minI maxI minJ maxJ)
  let cacheStates' := toRemove.foldl
    (fun m e => mapSet m e.1 (toMomento e.2)) st.cacheStates
  let active' := toRemove.foldl (fun a e => mapDelete a e.1) st.activeCaches
  { st with cacheStates := cacheStates', activeCaches := active' }

/-- CacheManager.updateVisibleCaches (src/unnamed/part_000 lines 80-143):
compute the window around the player cell, activate every window cell
(restore from memento, else generate), then evict the active caches that
fell outside the window.  An exception from a bad memento propagates: the
partially mutated state is returned with the error and the eviction phase
does not run. -/
def updateVisibleCaches (luck : String → Rat) (st : CMState) (playerPosition : LatLng)
    (visibilityRadius : Nat) : CMState × Option String :=
  let pcb := getCellForPoint st.board playerPosition
  let playerCell := pcb.1
  let st := { st with board := pcb.2 }
  let minI := playerCell.i - visibilityRadius
  let maxI := playerCell.i + visibilityRadius
  let minJ := playerCell.j - visibilityRadius
  let maxJ := playerCell.j + visibilityRadius
  match activateAll luck (prodList (intRange minI maxI) (intRange minJ maxJ)) st with
  | (st', none) => (evictOutside st' minI maxI minJ maxJ, none)
  | (st', some e) => (st', some e)

/-! ### Application state: player, inventory, movement trail, persistence. -/

/-- The persisted snapshot (saveGameState lines 379-388).  The outer
JSON.stringify/JSON.parse of localStorage round-trips this record; the
per-cache memento strings inside cacheStates are kept verbatim. -/
structure Snapshot where
  playerPosition : LatLng
  playerCoins : Int
  cacheStates : List (String × String)
  movementHistory : List LatLng
deriving DecidableEq, Repr

/-- The module-level mutable state of src/unnamed/part_000: the cache
manager (with its board), the player inventory and position, the movement
trail, the localStorage slot under GAME_STATE_KEY, and the payload log of
the player-inventory-changed notifications dispatched so far. -/
structure AppState where
  cm : CMState
  playerCoins : Int
  playerPosition : LatLng
  movementHistory : List LatLng
  storage : Option Snapshot
  notifications : List Int
deriving Repr

/-- saveGameState (lines 373-391): merge the dormant mementos with freshly
serialized active caches (active wins on a shared key) and store the
snapshot. -/
def saveGameState (st : AppState) : AppState :=
  let allCaches := st.cm.activeCaches.foldl
    (fun m e => mapSet m e.1 (toMomento e.2)) st.cm.cacheStates
  { st with storage := some ⟨st.playerPosition, st.playerCoins, allCaches,
      st.movementHistory⟩ }

/-- Build a Map from an entry list (the Map constructor: later entries win
on a duplicate key). -/
def mapFromList {α : Type} (entries : List (String × α)) : List (String × α) :=
  entries.foldl (fun m e => mapSet m e.1 e.2) []

/-- loadGameState (lines 394-438): with no stored state, do nothing; else
restore position, movement history and coins (dispatching an inventory
notification), clear the active set, install the stored mementos as the
dormant store, and re-run the visibility update at the restored position.
The surrounding try/catch keeps whatever was mutated when the update throws
on a bad memento. -/
def loadGameState (luck : String → Rat) (st : AppState) : AppState :=
  match st.storage with
  | none => st
  | some snap =>
      let st1 : AppState :=
        { st with
            playerPosition := snap.playerPosition,
            movementHistory := snap.movementHistory,
            playerCoins := snap.playerCoins,
            notifications := st.notifications ++ [snap.playerCoins],
            cm := { st.cm with
                      activeCaches := [],
                      cacheStates := mapFromList snap.cacheStates } }
      let cmErr := updateVisibleCaches luck st1.cm snap.playerPosition
        NEIGHBORHOOD_SIZE
      { st1 with cm := cmErr.1 }

/-- collectCoin (lines 269-281), on the active cache the popup holds: when
the coin list is non-empty, pop the last coin, increment the inventory,
dispatch the inventory notification and save; otherwise do nothing. -/
def collectCoin (st : AppState) (key : String) : AppState :=
  match mapGet st.cm.activeCaches key with
  | none => st
  | some cache =>
      if cache.coins.length > 0 then
        let cache' : Cache := { cache with coins := cache.coins.dropLast }
        let coins' := st.playerCoins + 1
        saveGameState
          { st with
              cm := { st.cm with
                        activeCaches := mapSet st.cm.activeCaches key cache' },
              playerCoins := coins',
              notifications := st.notifications ++ [coins'] }
      else st

/-- depositCoin (lines 283-295): when the inventory is positive, append a
coin bearing the cache cell and the next serial, decrement the inventory,
dispatch the inventory notification and save; otherwise do nothing. -/
def depositCoin (st : AppState) (key : String) : AppState :=
  match mapGet st.cm.activeCaches key with
  | none => st
  | some cache =>
      if st.playerCoins > 0 then
        let cache' : Cache :=
          { cache with coins := cache.coins ++ [⟨cache.cell, cache.coins.length⟩] }
        let coins' := st.playerCoins - 1
        saveGameState
          { st with
              cm := { st.cm with
                        activeCaches := mapSet st.cm.activeCaches key cache' },
              playerCoins := coins',
              notifications := st.notifications ++ [coins'] }
      else st

/-- A player interaction with the popup buttons. -/
inductive GameOp where
  | collect (key : String)
  | deposit (key : String)

/-- Run a sequence of popup interactions. -/
def applyOps (st : AppState) : List GameOp → AppState
  | [] => st
  | GameOp.collect k :: rest => applyOps (collectCoin st k) rest
  | GameOp.deposit k :: rest => applyOps (depositCoin st k) rest

/-- The fresh-session module state (lines 201-208): no coins, the player at
Oakes classroom, the movement trail seeded with the initial position, empty
manager maps and an empty storage slot. -/
def freshState : AppState :=
  { cm := ⟨⟨[]⟩, [], []⟩,
    playerCoins := 0,
    playerPosition := OAKES_CLASSROOM,
    movementHistory := [OAKES_CLASSROOM],
    storage := none,
    notifications := [] }

/-- The coin count a dormant memento encodes (0 for an undecodable one). -/
def momentoCoins (s : String) : Int :=
  match fromMomento s with
  | some c => c.coins.length
  | none => 0

/-- The conserved quantity: coins in active caches, plus coins encoded in
dormant mementos, plus the player inventory. -/
def totalCoins (st : AppState) : Int :=
  sumBy (fun c => (c.coins.length : Int)) st.cm.activeCaches +
    sumBy momentoCoins st.cm.cacheStates + st.playerCoins

/-! ### Conservation and guard lemmas for collect and deposit. -/

theorem totalCoins_saveGameState (st : AppState) :
    totalCoins (saveGameState st) = totalCoins st := rfl

theorem collectCoin_totalCoins (st : AppState) (key : String) :
    totalCoins (collectCoin st key) = totalCoins st := by
  rw [collectCoin]
  cases h : mapGet st.cm.activeCaches key with
  | none => rfl
  | some cache =>
      simp only
      by_cases hl : cache.coins.length > 0
      · rw [if_pos hl, totalCoins_saveGameState]
        show sumBy _ (mapSet st.cm.activeCaches key _) +
            sumBy momentoCoins st.cm.cacheStates + (st.playerCoins + 1) =
          totalCoins st
        rw [sumBy_set _ _ h, totalCoins]
        have hdl : (cache.coins.dropLast).length = cache.coins.length - 1 :=
          List.length_dropLast _
        simp only [hdl]
        have : ((cache.coins.length - 1 : Nat) : Int) = (cache.coins.length : Int) - 1 := by
          omega
        rw [this]
        ring
      · rw [if_neg hl]

theorem depositCoin_totalCoins (st : AppState) (key : String) :
    totalCoins (depositCoin st key) = totalCoins st := by
  rw [depositCoin]
  cases h : mapGet st.cm.activeCaches key with
  | none => rfl
  | some cache =>
      simp only
      by_cases hp : st.playerCoins > 0
      · rw [if_pos hp, totalCoins_saveGameState]
        show sumBy _ (mapSet st.cm.activeCaches key _) +
            sumBy momentoCoins st.cm.cacheStates + (st.playerCoins - 1) =
          totalCoins st
        rw [sumBy_set _ _ h, totalCoins]
        simp only [List.length_append, List.length_cons, List.length_nil]
        push_cast
        ring
      · rw [if_neg hp]

theorem collectCoin_playerCoins_nonneg (st : AppState) (key : String)
    (h : 0 ≤ st.playerCoins) : 0 ≤ (collectCoin st key).playerCoins := by
  rw [collectCoin]
  cases hm : mapGet st.cm.activeCaches key with
  | none => exact h
  | some cache =>
      simp only
      by_cases hl : cache.coins.length > 0
      · rw [if_pos hl]
        show 0 ≤ st.playerCoins + 1
        omega
      · rw [if_neg hl]
        exact h

theorem depositCoin_playerCoins_nonneg (st : AppState) (key : String)
    (h : 0 ≤ st.playerCoins) : 0 ≤ (depositCoin st key).playerCoins := by
  rw [depositCoin]
  cases hm : mapGet st.cm.activeCaches key with
  | none => exact h
  | some cache =>
      simp only
      by_cases hp : st.playerCoins > 0
      · rw [if_pos hp]
        show 0 ≤ st.playerCoins - 1
        omega
      · rw [if_neg hp]
        exact h

theorem applyOps_playerCoins_nonneg (ops : List GameOp) : ∀ (st : AppState),
    0 ≤ st.playerCoins → 0 ≤ (applyOps st ops).playerCoins := by
  induction ops with
  | nil => intro st h; exact h
  | cons op rest ih =>
      intro st h
      cases op with
      | collect k => exact ih _ (collectCoin_playerCoins_nonneg st k h)
      | deposit k => exact ih _ (depositCoin_playerCoins_nonneg st k h)

/-! ### Claim theorems (first batch). -/

/-- C2: for every cache with cell (i,j) and coin list cs, deserializing the
memento produced by toMomento recovers a cache with the same cell and the
same coin list, element for element and in order. -/
theorem claim2_momento_roundtrip (cell : Cell) (coins : List Coin) :
    fromMomento (toMomento ⟨cell, coins⟩) = some ⟨cell, coins⟩ :=
  fromMomento_toMomento _

/-- C4: the total coin count (active caches plus dormant mementos plus the
player inventory) is invariant under every collectCoin call and every
depositCoin call. -/
theorem claim4_coin_conservation (st : AppState) (key : String) :
    totalCoins (collectCoin st key) = totalCoins st ∧
      totalCoins (depositCoin st key) = totalCoins st :=
  ⟨collectCoin_totalCoins st key, depositCoin_totalCoins st key⟩

/-- C6: collectCoin on an empty cache is a complete no-op (whole AppState
unchanged, no notification dispatched), depositCoin with a zero inventory is
a complete no-op, and along every sequence of collect/deposit calls from a
non-negative inventory the inventory stays non-negative (cache coin counts
are list lengths and are non-negative by construction). -/
theorem claim6_noop_guards_nonneg :
    (∀ (st : AppState) (key : String) (cache : Cache),
        mapGet st.cm.activeCaches key = some cache → cache.coins = [] →
        collectCoin st key = st) ∧
    (∀ (st : AppState) (key : String), st.playerCoins = 0 →
        depositCoin st key = st) ∧
    (∀ (st : AppState) (ops : List GameOp), 0 ≤ st.playerCoins →
        0 ≤ (applyOps st ops).playerCoins ∧
        ∀ e ∈ (applyOps st ops).cm.activeCaches, 0 ≤ (e.2.coins.length : Int)) := by
  refine ⟨?_, ?_, ?_⟩
  · intro st key cache hm hempty
    rw [collectCoin, hm]
    simp only
    rw [if_neg (by rw [hempty]; simp)]
  · intro st key h0
    rw [depositCoin]
    cases hm : mapGet st.cm.activeCaches key with
    | none => rfl
    | some cache =>
        simp only
        rw [if_neg (by omega)]
  · intro st ops h
    refine ⟨applyOps_playerCoins_nonneg ops st h, ?_⟩
    intro e he
    positivity

/-- A one-cache, zero-inventory state used to instantiate guard claims. -/
def stGuard : AppState :=
  { cm := ⟨⟨[]⟩, [], [("0,0", ⟨⟨0, 0⟩, []⟩)]⟩,
    playerCoins := 0,
    playerPosition := ⟨0, 0⟩,
    movementHistory := [],
    storage := none,
    notifications := [] }

/-- Witness for C6 at a concrete one-cache zero-inventory state. -/
theorem claim6_noop_guards_nonneg_witness :
    collectCoin stGuard "0,0" = stGuard ∧
      depositCoin stGuard "0,0" = stGuard ∧
      0 ≤ (applyOps stGuard [GameOp.collect "0,0", GameOp.deposit "0,0"]).playerCoins :=
  ⟨claim6_noop_guards_nonneg.1 stGuard "0,0" ⟨⟨0, 0⟩, []⟩ (by rfl) rfl,
    claim6_noop_guards_nonneg.2.1 stGuard "0,0" rfl,
    (claim6_noop_guards_nonneg.2.2 stGuard
      [GameOp.collect "0,0", GameOp.deposit "0,0"] (by decide)).1⟩

/-! ### Claim theorems: generation, canonicalization, save/load. -/

/-- C5: generateCache is deterministic (a pure function of the luck values
at the two seeds), yields a cache exactly when the luck of the cell-key
seed is under the spawn probability, sizes the coin list as the floor of
ten times the luck of the coins seed with serials 0,1,2,..., and on the
stipulated scenario values (luck at seed 0,0 equal to 0.05 and at seed
0,0,coins equal to 0.37) produces a cache at (0,0) with exactly 3 coins. -/
theorem claim5_generate_deterministic :
    (∀ (luck : String → Rat) (cell : Cell),
        ((generateCache luck cell).isSome ↔
            luck (cellKey cell) < CACHE_SPAWN_PROBABILITY) ∧
        (∀ c, generateCache luck cell = some c →
            c.cell = cell ∧
            c.coins.length = (⌊luck (cellKey cell ++ ",coins") * 10⌋).toNat ∧
            c.coins = (List.range c.coins.length).map (fun serial => ⟨cell, serial⟩)) ∧
        generateCache luck cell = generateCache luck cell) ∧
    generateCache luckDemo ⟨0, 0⟩ =
      some ⟨⟨0, 0⟩, [⟨⟨0, 0⟩, 0⟩, ⟨⟨0, 0⟩, 1⟩, ⟨⟨0, 0⟩, 2⟩]⟩ := by
  refine ⟨?_, by with_unfolding_all decide⟩
  intro luck cell
  refine ⟨?_, ?_, rfl⟩
  · rw [generateCache]
    by_cases h : luck (cellKey cell) < CACHE_SPAWN_PROBABILITY
    · simp [h]
    · simp [h]
  · intro c hc
    rw [generateCache] at hc
    by_cases h : luck (cellKey cell) < CACHE_SPAWN_PROBABILITY
    · rw [if_pos h] at hc
      injection hc with hc
      subst hc
      simp
    · rw [if_neg h] at hc
      exact absurd hc (by simp)

/-- The cache the spec scenario stipulates at cell (0,0). -/
def cacheDemo : Cache := ⟨⟨0, 0⟩, [⟨⟨0, 0⟩, 0⟩, ⟨⟨0, 0⟩, 1⟩, ⟨⟨0, 0⟩, 2⟩]⟩

/-- Witness for C5 at the demo generator and cell (0,0). -/
theorem claim5_generate_deterministic_witness :
    cacheDemo.cell = ⟨0, 0⟩ ∧
      cacheDemo.coins.length = (⌊luckDemo (cellKey ⟨0, 0⟩ ++ ",coins") * 10⌋).toNat :=
  ⟨((claim5_generate_deterministic.1 luckDemo ⟨0, 0⟩).2.1 cacheDemo
      (by with_unfolding_all decide)).1,
    ((claim5_generate_deterministic.1 luckDemo ⟨0, 0⟩).2.1 cacheDemo
      (by with_unfolding_all decide)).2.1⟩

theorem getCanonicalCell_get (b : Board) (c : Cell) :
    mapGet (getCanonicalCell b c).2.knownCells (cellKey c) =
      some ((getCanonicalCell b c).1) := by
  rw [getCanonicalCell]
  by_cases h : mapHas b.knownCells (cellKey c) = true
  · simp only [if_pos h]
    rw [mapHas] at h
    obtain ⟨x, hx⟩ := Option.isSome_iff_exists.mp h
    rw [hx]
    rfl
  · simp [if_neg h, mapGet_set_self]

theorem getCanonicalCell_idem (b : Board) (c : Cell) :
    getCanonicalCell (getCanonicalCell b c).2 c =
      ((getCanonicalCell b c).1, (getCanonicalCell b c).2) := by
  have hget := getCanonicalCell_get b c
  have hhas : mapHas (getCanonicalCell b c).2.knownCells (cellKey c) = true := by
    rw [mapHas, hget]
    rfl
  conv_lhs => rw [getCanonicalCell]
  simp only [hhas, if_pos, if_true, hget]
  rfl

/-- C9: two points with the same floor indices canonicalize, in sequence,
to equal cells; and a second getCanonicalCell call for the same (i,j)
returns exactly the cell the first call registered, leaving the interning
table unchanged (at most one cell per key). -/
theorem claim9_canonicalization :
    (∀ (b : Board) (p q : LatLng),
        ⌊(p.lat - NULL_ISLAND.lat) / TILE_DEGREES⌋ =
            ⌊(q.lat - NULL_ISLAND.lat) / TILE_DEGREES⌋ →
        ⌊(p.lng - NULL_ISLAND.lng) / TILE_DEGREES⌋ =
            ⌊(q.lng - NULL_ISLAND.lng) / TILE_DEGREES⌋ →
        (getCellForPoint (getCellForPoint b p).2 q).1 = (getCellForPoint b p).1) ∧
    (∀ (b : Board) (i j : Int),
        getCanonicalCell (getCanonicalCell b ⟨i, j⟩).2 ⟨i, j⟩ =
          ((getCanonicalCell b ⟨i, j⟩).1, (getCanonicalCell b ⟨i, j⟩).2)) := by
  refine ⟨?_, fun b i j => getCanonicalCell_idem b ⟨i, j⟩⟩
  intro b p q hlat hlng
  show (getCellForPoint (getCellForPoint b p).2 q).1 = (getCellForPoint b p).1
  conv_lhs => rw [getCellForPoint]
  conv_rhs => rw [getCellForPoint]
  rw [← hlat, ← hlng]
  have h2 : (getCellForPoint b p).2 = (getCanonicalCell b
      ⟨⌊(p.lat - NULL_ISLAND.lat) / TILE_DEGREES⌋,
        ⌊(p.lng - NULL_ISLAND.lng) / TILE_DEGREES⌋⟩).2 := by
    rw [getCellForPoint]
  rw [h2, getCanonicalCell_idem]

/-- Witness for C9 with two distinct points of the origin cell on the empty
board. -/
theorem claim9_canonicalization_witness :
    (getCellForPoint (getCellForPoint ⟨[]⟩ ⟨0, 0⟩).2 ⟨1 / 20000, 1 / 20000⟩).1 =
      (getCellForPoint ⟨[]⟩ ⟨0, 0⟩).1 :=
  claim9_canonicalization.1 ⟨[]⟩ ⟨0, 0⟩ ⟨1 / 20000, 1 / 20000⟩
    (by with_unfolding_all decide) (by with_unfolding_all decide)

/-- C8 counterexample: after save then load from the fresh session, the
restored movement trail is not empty: it holds the initial position. -/
theorem claim8_counterexample :
    (loadGameState (fun _ => 1 / 2) (saveGameState freshState)).movementHistory ≠ [] := by
  have h : (loadGameState (fun _ => 1 / 2) (saveGameState freshState)).movementHistory
      = [OAKES_CLASSROOM] := rfl
  rw [h]
  simp

/-- C8 amended: after save then load from the fresh session (no collects,
no deposits, no movement), the restored player coin count is 0 and the
restored movement trail is exactly the single initial position the fresh
session starts with. -/
theorem claim8_save_load_fresh (luck : String → Rat) :
    (loadGameState luck (saveGameState freshState)).playerCoins = 0 ∧
      (loadGameState luck (saveGameState freshState)).movementHistory
        = [OAKES_CLASSROOM] :=
  ⟨rfl, rfl⟩


/-! ### Window geometry and iteration order lemmas. -/

theorem mem_intRangeAux (n : Nat) : ∀ (lo : Int) (x : Int),
    x ∈ intRangeAux lo n ↔ lo ≤ x ∧ x < lo + n := by
  induction n with
  | zero =>
      intro lo x
      rw [intRangeAux]
      simp only [List.not_mem_nil, false_iff]
      omega
  | succ n ih =>
      intro lo x
      rw [intRangeAux]
      simp only [List.mem_cons, ih (lo + 1) x]
      omega

theorem mem_intRange {lo hi x : Int} : x ∈ intRange lo hi ↔ lo ≤ x ∧ x ≤ hi := by
  rw [intRange, mem_intRangeAux]
  omega

theorem intRangeAux_nodup (n : Nat) : ∀ (lo : Int), (intRangeAux lo n).Nodup := by
  induction n with
  | zero => intro lo; simp [intRangeAux]
  | succ n ih =>
      intro lo
      rw [intRangeAux, List.nodup_cons]
      refine ⟨fun hmem => ?_, ih (lo + 1)⟩
      have := (mem_intRangeAux n (lo + 1) lo).mp hmem
      omega

theorem intRange_nodup (lo hi : Int) : (intRange lo hi).Nodup :=
  intRangeAux_nodup _ lo

theorem mem_prodList {xs ys : List Int} {ij : Int × Int} :
    ij ∈ prodList xs ys ↔ ij.1 ∈ xs ∧ ij.2 ∈ ys := by
  induction xs with
  | nil => simp [prodList]
  | cons x xs' ih =>
      rw [prodList]
      simp only [List.mem_append, List.mem_map, ih, List.mem_cons]
      constructor
      · rintro (⟨j, hj, rfl⟩ | ⟨h1, h2⟩)
        · exact ⟨Or.inl rfl, hj⟩
        · exact ⟨Or.inr h1, h2⟩
      · rintro ⟨h1 | h1, h2⟩
        · exact Or.inl ⟨ij.2, h2, by rw [← h1]⟩
        · exact Or.inr ⟨h1, h2⟩

theorem prodList_nodup {xs ys : List Int} (hx : xs.Nodup) (hy : ys.Nodup) :
    (prodList xs ys).Nodup := by
  induction xs with
  | nil => simp [prodList]
  | cons x xs' ih =>
      rw [prodList]
      rcases List.nodup_cons.mp hx with ⟨hx1, hx2⟩
      refine List.Nodup.append ?_ (ih hx2) ?_
      · exact List.Nodup.map (fun a b h => by injection h) hy
      · intro ij hij1 hij2
        obtain ⟨j, hj, rfl⟩ := List.mem_map.mp hij1
        have := (mem_prodList.mp hij2).1
        exact hx1 this

/-- The key of a window pair. -/
def pairKey (ij : Int × Int) : String := cellKey ⟨ij.1, ij.2⟩

theorem pairKey_injective : Function.Injective pairKey := by
  intro a b h
  have := cellKey_injective h
  injection this with h1 h2
  exact Prod.ext h1 h2

theorem prodList_keys_nodup {xs ys : List Int} (hx : xs.Nodup) (hy : ys.Nodup) :
    ((prodList xs ys).map pairKey).Nodup :=
  List.Nodup.map pairKey_injective (prodList_nodup hx hy)

/-! ### Eviction fold lemmas. -/

theorem foldl_delete_get {α : Type} (K : List (String × α)) :
    ∀ (m : List (String × α)), (m.map Prod.fst).Nodup →
    ((K.foldl (fun a e => mapDelete a e.1) m).map Prod.fst).Nodup ∧
    (∀ key, mapGet (K.foldl (fun a e => mapDelete a e.1) m) key =
        if key ∈ K.map Prod.fst then none else mapGet m key) := by
  induction K with
  | nil => intro m hm; simp [hm]
  | cons e K' ih =>
      intro m hm
      rw [List.foldl_cons]
      obtain ⟨hnd', hget'⟩ := ih (mapDelete m e.1) (mapDelete_nodup e.1 hm)
      refine ⟨hnd', fun key => ?_⟩
      rw [hget' key]
      by_cases h1 : key ∈ K'.map Prod.fst
      · rw [if_pos h1, if_pos ?side]
        case side =>
          rw [List.map_cons]
          exact List.mem_cons_of_mem _ h1
      · rw [if_neg h1]
        by_cases h2 : key = e.1
        · rw [if_pos ?side, h2, mapGet_delete_self m e.1 hm]
          case side =>
            rw [List.map_cons, h2]
            exact List.mem_cons_self _ _
        · rw [if_neg ?side, mapGet_delete_ne m e.1 key (fun hh => h2 hh.symm)]
          case side =>
            rw [List.map_cons, List.mem_cons]
            rintro (hh | hh)
            · exact h2 hh
            · exact h1 hh

theorem foldl_set_get {α β : Type} (f : α → β) (K : List (String × α)) :
    ∀ (m : List (String × β)), (K.map Prod.fst).Nodup →
    ∀ key, mapGet (K.foldl (fun m e => mapSet m e.1 (f e.2)) m) key =
        match mapGet K key with
        | some v => some (f v)
        | none => mapGet m key := by
  induction K with
  | nil => intro m hK key; simp [mapGet]
  | cons e K' ih =>
      intro m hK key
      rw [List.map_cons] at hK
      rcases List.nodup_cons.mp hK with ⟨hK1, hK2⟩
      rw [List.foldl_cons, ih (mapSet m e.1 (f e.2)) hK2 key]
      rw [mapGet]
      by_cases h1 : e.1 = key
      · rw [if_pos h1]
        have hnone : mapGet K' key = none := by
          apply mapGet_eq_none_of_not_mem
          rw [← h1]
          exact hK1
        rw [hnone, ← h1, mapGet_set_self]
      · rw [if_neg h1]
        cases hK' : mapGet K' key with
        | some v => rfl
        | none => rw [mapGet_set_ne m e.1 key _ h1]

theorem mapGet_filter {α : Type} (p : String × α → Bool) (m : List (String × α))
    (hm : (m.map Prod.fst).Nodup) (key : String) :
    mapGet (m.filter p) key =
      match mapGet m key with
      | some c => if p (key, c) then some c else none
      | none => none := by
  induction m with
  | nil => simp [mapGet]
  | cons e rest ih =>
      rw [List.map_cons] at hm
      rcases List.nodup_cons.mp hm with ⟨h1, h2⟩
      rw [List.filter_cons, mapGet]
      by_cases he : e.1 = key
      · have hekey : e = (key, e.2) := by
          obtain ⟨e1, e2⟩ := e
          simp only at he
          rw [he]
        by_cases hp : p e = true
        · rw [if_pos hp, if_pos he, mapGet, if_pos he]
          rw [hekey] at hp
          simp only [hp, if_true]
        · rw [if_neg hp, if_pos he]
          have hnone : mapGet (rest.filter p) key = none := by
            apply mapGet_eq_none_of_not_mem
            intro hmem
            apply h1
            rw [he]
            obtain ⟨e', he', rfl⟩ := List.mem_map.mp hmem
            exact List.mem_map.mpr ⟨e', (List.mem_filter.mp he').1, rfl⟩
          rw [hnone]
          rw [hekey] at hp
          simp only [Bool.not_eq_true] at hp
          simp [hp]
      · by_cases hp : p e = true
        · rw [if_pos hp, if_neg he, mapGet, if_neg he]
          exact ih h2
        · rw [if_neg hp, if_neg he]
          exact ih h2

/-! ### Characterizing the activation loop. -/

theorem generateCache_cell {luck : String → Rat} {cell : Cell} {g : Cache}
    (h : generateCache luck cell = some g) : g.cell = cell := by
  rw [generateCache] at h
  by_cases hl : luck (cellKey cell) < CACHE_SPAWN_PROBABILITY
  · rw [if_pos hl] at h
    injection h with h
    rw [← h]
  · rw [if_neg hl] at h
    exact absurd h (by simp)

/-- The per-cell outcome of one pass of the activation loop, as a function
of the pre-loop state: an already active cache is kept, else a stored
memento decides, else generation decides. -/
def loopOutcome (luck : String → Rat) (st : CMState) (ij : Int × Int) : Option Cache :=
  if mapHas st.activeCaches (pairKey ij) then mapGet st.activeCaches (pairKey ij)
  else
    match mapGet st.cacheStates (pairKey ij) with
    | some m => fromMomento m
    | none => generateCache luck ⟨ij.1, ij.2⟩

theorem activateOne_cases (luck : String → Rat) (st : CMState) (ij : Int × Int)
    (hb : BoardWF st.board) :
    ∃ b', BoardWF b' ∧
    ((mapHas st.activeCaches (pairKey ij) = true ∧
        activateOne luck st ij = ({ st with board := b' }, none)) ∨
     (mapHas st.activeCaches (pairKey ij) = false ∧
       ((∃ m d, mapGet st.cacheStates (pairKey ij) = some m ∧ fromMomento m = some d ∧
          activateOne luck st ij =
            ({ st with
                board := b'
                activeCaches := mapSet st.activeCaches (pairKey ij) d }, none)) ∨
        (∃ m, mapGet st.cacheStates (pairKey ij) = some m ∧ fromMomento m = none ∧
          activateOne luck st ij = ({ st with board := b' }, some "SyntaxError")) ∨
        (mapGet st.cacheStates (pairKey ij) = none ∧
          ((∃ g, generateCache luck ⟨ij.1, ij.2⟩ = some g ∧
             activateOne luck st ij =
               ({ st with
                   board := b'
                   activeCaches := mapSet st.activeCaches (pairKey ij) g }, none)) ∨
           (generateCache luck ⟨ij.1, ij.2⟩ = none ∧
             activateOne luck st ij = ({ st with board := b' }, none))))))) := by
  obtain ⟨hcan1, hcanWF⟩ := getCanonicalCell_wf (b := st.board) ⟨ij.1, ij.2⟩ hb
  refine ⟨(getCanonicalCell st.board ⟨ij.1, ij.2⟩).2, hcanWF, ?_⟩
  by_cases hhas : mapHas st.activeCaches (pairKey ij) = true
  · refine Or.inl ⟨hhas, ?_⟩
    rw [activateOne]
    simp only [hcan1]
    rw [show cellKey ⟨ij.1, ij.2⟩ = pairKey ij from rfl, if_pos hhas]
  · refine Or.inr ⟨by simpa using hhas, ?_⟩
    cases hm : mapGet st.cacheStates (pairKey ij) with
    | some m =>
        cases hd : fromMomento m with
        | some d =>
            refine Or.inl ⟨m, d, rfl, hd, ?_⟩
            rw [activateOne]
            simp only [hcan1]
            rw [show cellKey ⟨ij.1, ij.2⟩ = pairKey ij from rfl, if_neg hhas]
            simp only [hm, hd]
        | none =>
            refine Or.inr (Or.inl ⟨m, rfl, hd, ?_⟩)
            rw [activateOne]
            simp only [hcan1]
            rw [show cellKey ⟨ij.1, ij.2⟩ = pairKey ij from rfl, if_neg hhas]
            simp only [hm, hd]
    | none =>
        cases hg : generateCache luck ⟨ij.1, ij.2⟩ with
        | some g =>
            refine Or.inr (Or.inr ⟨rfl, Or.inl ⟨g, rfl, ?_⟩⟩)
            rw [activateOne]
            simp only [hcan1]
            rw [show cellKey ⟨ij.1, ij.2⟩ = pairKey ij from rfl, if_neg hhas]
            simp only [hm, hg]
        | none =>
            refine Or.inr (Or.inr ⟨rfl, Or.inr ⟨rfl, ?_⟩⟩)
            rw [activateOne]
            simp only [hcan1]
            rw [show cellKey ⟨ij.1, ij.2⟩ = pairKey ij from rfl, if_neg hhas]
            simp only [hm, hg]

theorem mapGet_eq_none_of_has_false {α : Type} {m : List (String × α)} {k : String}
    (h : mapHas m k = false) : mapGet m k = none := by
  rw [mapHas] at h
  exact Option.not_isSome_iff_eq_none.mp (by rw [h]; simp)

theorem loopOutcome_congr (luck : String → Rat) {st2 st : CMState} (ij : Int × Int)
    (h1 : st2.cacheStates = st.cacheStates)
    (h2 : mapGet st2.activeCaches (pairKey ij) = mapGet st.activeCaches (pairKey ij)) :
    loopOutcome luck st2 ij = loopOutcome luck st ij := by
  rw [loopOutcome, loopOutcome, mapHas, mapHas, h1, h2]

theorem activateAll_spec (luck : String → Rat) (L : List (Int × Int)) :
    ∀ (st : CMState),
    BoardWF st.board →
    (∀ e ∈ st.cacheStates, (fromMomento e.2).isSome = true) →
    (st.activeCaches.map Prod.fst).Nodup →
    (L.map pairKey).Nodup →
    (activateAll luck L st).2 = none ∧
    (activateAll luck L st).1.cacheStates = st.cacheStates ∧
    BoardWF (activateAll luck L st).1.board ∧
    ((activateAll luck L st).1.activeCaches.map Prod.fst).Nodup ∧
    (∀ key, key ∉ L.map pairKey →
        mapGet (activateAll luck L st).1.activeCaches key = mapGet st.activeCaches key) ∧
    (∀ ij ∈ L, mapGet (activateAll luck L st).1.activeCaches (pairKey ij) =
        loopOutcome luck st ij) := by
  induction L with
  | nil =>
      intro st hb hMem hnd hL
      refine ⟨rfl, rfl, hb, hnd, fun key _ => rfl, fun ij hij => absurd hij (by simp)⟩
  | cons ij L' ih =>
      intro st hb hMem hnd hL
      rw [List.map_cons] at hL
      rcases List.nodup_cons.mp hL with ⟨hL1, hL2⟩
      rcases activateOne_cases luck st ij hb with
        ⟨b', hbW, ⟨hhas, hstep⟩ | ⟨hhas, hB | hC | ⟨hmnone, hD | hE⟩⟩⟩
      · -- already active: the loop skips the cell
        have hred : activateAll luck (ij :: L') st =
            activateAll luck L' { st with board := b' } := by
          rw [activateAll]
          simp only [hstep]
        obtain ⟨i1, i2, i3, i4, i5, i6⟩ := ih { st with board := b' } hbW hMem hnd hL2
        rw [hred]
        refine ⟨i1, i2, i3, i4, ?_, ?_⟩
        · intro key hkey
          rw [List.map_cons] at hkey
          exact i5 key (fun hh => hkey (List.mem_cons_of_mem _ hh))
        · intro ij' hij'
          rcases List.mem_cons.mp hij' with rfl | hij'
          · rw [i5 (pairKey ij') hL1, loopOutcome, if_pos hhas]
          · rw [i6 ij' hij']
            exact loopOutcome_congr luck ij' rfl rfl
      · -- restore from memento
        obtain ⟨m, d, hm, hd, hstep⟩ := hB
        have hred : activateAll luck (ij :: L') st =
            activateAll luck L'
              { st with
                  board := b'
                  activeCaches := mapSet st.activeCaches (pairKey ij) d } := by
          rw [activateAll]
          simp only [hstep]
        obtain ⟨i1, i2, i3, i4, i5, i6⟩ := ih
          { st with
              board := b'
              activeCaches := mapSet st.activeCaches (pairKey ij) d }
          hbW hMem (mapSet_nodup _ _ hnd) hL2
        rw [hred]
        refine ⟨i1, i2, i3, i4, ?_, ?_⟩
        · intro key hkey
          rw [List.map_cons] at hkey
          rw [i5 key (fun hh => hkey (List.mem_cons_of_mem _ hh))]
          exact mapGet_set_ne _ _ _ _ (fun hh => hkey (hh ▸ List.mem_cons_self _ _))
        · intro ij' hij'
          rcases List.mem_cons.mp hij' with rfl | hij'
          · rw [i5 (pairKey ij') hL1]
            show mapGet (mapSet st.activeCaches (pairKey ij') d) (pairKey ij') = _
            rw [mapGet_set_self, loopOutcome]
            simp only [hhas, Bool.false_eq_true, if_false, hm, hd]
          · rw [i6 ij' hij']
            refine loopOutcome_congr luck ij' rfl ?_
            show mapGet (mapSet st.activeCaches (pairKey ij) d) (pairKey ij') = _
            refine mapGet_set_ne _ _ _ _ (fun hh => ?_)
            exact hL1 (hh ▸ List.mem_map.mpr ⟨ij', hij', rfl⟩)
      · -- a stored memento that does not decode cannot occur here
        obtain ⟨m, hm, hd, _⟩ := hC
        have hmem := mapGet_mem hm
        have := hMem _ hmem
        rw [hd] at this
        simp at this
      · -- generate a fresh cache
        obtain ⟨g, hg, hstep⟩ := hD
        have hred : activateAll luck (ij :: L') st =
            activateAll luck L'
              { st with
                  board := b'
                  activeCaches := mapSet st.activeCaches (pairKey ij) g } := by
          rw [activateAll]
          simp only [hstep]
        obtain ⟨i1, i2, i3, i4, i5, i6⟩ := ih
          { st with
              board := b'
              activeCaches := mapSet st.activeCaches (pairKey ij) g }
          hbW hMem (mapSet_nodup _ _ hnd) hL2
        rw [hred]
        refine ⟨i1, i2, i3, i4, ?_, ?_⟩
        · intro key hkey
          rw [List.map_cons] at hkey
          rw [i5 key (fun hh => hkey (List.mem_cons_of_mem _ hh))]
          exact mapGet_set_ne _ _ _ _ (fun hh => hkey (hh ▸ List.mem_cons_self _ _))
        · intro ij' hij'
          rcases List.mem_cons.mp hij' with rfl | hij'
          · rw [i5 (pairKey ij') hL1]
            show mapGet (mapSet st.activeCaches (pairKey ij') g) (pairKey ij') = _
            rw [mapGet_set_self, loopOutcome]
            simp only [hhas, Bool.false_eq_true, if_false, hmnone, hg]
          · rw [i6 ij' hij']
            refine loopOutcome_congr luck ij' rfl ?_
            show mapGet (mapSet st.activeCaches (pairKey ij) g) (pairKey ij') = _
            refine mapGet_set_ne _ _ _ _ (fun hh => ?_)
            exact hL1 (hh ▸ List.mem_map.mpr ⟨ij', hij', rfl⟩)
      · -- nothing to restore, nothing generated: the cell stays unknown
        obtain ⟨hg, hstep⟩ := hE
        have hred : activateAll luck (ij :: L') st =
            activateAll luck L' { st with board := b' } := by
          rw [activateAll]
          simp only [hstep]
        obtain ⟨i1, i2, i3, i4, i5, i6⟩ := ih { st with board := b' } hbW hMem hnd hL2
        rw [hred]
        refine ⟨i1, i2, i3, i4, ?_, ?_⟩
        · intro key hkey
          rw [List.map_cons] at hkey
          exact i5 key (fun hh => hkey (List.mem_cons_of_mem _ hh))
        · intro ij' hij'
          rcases List.mem_cons.mp hij' with rfl | hij'
          · rw [i5 (pairKey ij') hL1]
            show mapGet st.activeCaches (pairKey ij') = _
            rw [mapGet_eq_none_of_has_false hhas, loopOutcome]
            simp only [hhas, Bool.false_eq_true, if_false, hmnone, hg]
          · rw [i6 ij' hij']
            exact loopOutcome_congr luck ij' rfl rfl

/-! ### Characterizing the eviction phase and the whole update. -/

theorem evictOutside_spec (st : CMState) (minI maxI minJ maxJ : Int)
    (hnd : (st.activeCaches.map Prod.fst).Nodup) :
    (evictOutside st minI maxI minJ maxJ).board = st.board ∧
    ((evictOutside st minI maxI minJ maxJ).activeCaches.map Prod.fst).Nodup ∧
    ∀ key,
      (mapGet (evictOutside st minI maxI minJ maxJ).activeCaches key =
        match mapGet st.activeCaches key with
        | some c => if evictTest minI maxI minJ maxJ (key, c) then none else some c
        | none => none) ∧
      (mapGet (evictOutside st minI maxI minJ maxJ).cacheStates key =
        match mapGet st.activeCaches key with
        | some c =>
            if evictTest minI maxI minJ maxJ (key, c) then some (toMomento c)
            else mapGet st.cacheStates key
        | none => mapGet st.cacheStates key) := by
  have hsub : ((st.activeCaches.filter (evictTest minI maxI minJ maxJ)).map
      Prod.fst).Sublist (st.activeCaches.map Prod.fst) :=
    List.Sublist.map _ (List.filter_sublist _)
  have hndR : ((st.activeCaches.filter (evictTest minI maxI minJ maxJ)).map
      Prod.fst).Nodup := hnd.sublist hsub
  obtain ⟨hdel_nd, hdel⟩ := foldl_delete_get
    (st.activeCaches.filter (evictTest minI maxI minJ maxJ)) st.activeCaches hnd
  have hfil := mapGet_filter (evictTest minI maxI minJ maxJ) st.activeCaches hnd
  refine ⟨rfl, hdel_nd, fun key => ⟨?_, ?_⟩⟩
  · show mapGet ((st.activeCaches.filter (evictTest minI maxI minJ maxJ)).foldl
      (fun a e => mapDelete a e.1) st.activeCaches) key = _
    rw [hdel key]
    cases hA : mapGet st.activeCaches key with
    | none =>
        have hnotmem : key ∉ (st.activeCaches.filter
            (evictTest minI maxI minJ maxJ)).map Prod.fst := by
          intro hh
          have hsome := (mapGet_isSome_iff_mem _ _).mpr hh
          rw [hfil key, hA] at hsome
          simp at hsome
        rw [if_neg hnotmem]
    | some c =>
        by_cases hout : evictTest minI maxI minJ maxJ (key, c) = true
        · have hmem : key ∈ (st.activeCaches.filter
              (evictTest minI maxI minJ maxJ)).map Prod.fst := by
            apply (mapGet_isSome_iff_mem _ _).mp
            rw [hfil key, hA]
            simp only [hout, if_true]
            rfl
          rw [if_pos hmem]
          simp only [hout, if_true]
        · have hnotmem : key ∉ (st.activeCaches.filter
              (evictTest minI maxI minJ maxJ)).map Prod.fst := by
            intro hh
            have hsome := (mapGet_isSome_iff_mem _ _).mpr hh
            rw [hfil key, hA] at hsome
            simp only [Bool.not_eq_true] at hout
            simp [hout] at hsome
          rw [if_neg hnotmem]
          simp only [Bool.not_eq_true] at hout
          simp [hout]
  · show mapGet ((st.activeCaches.filter (evictTest minI maxI minJ maxJ)).foldl
      (fun m e => mapSet m e.1 (toMomento e.2)) st.cacheStates) key = _
    rw [foldl_set_get toMomento _ st.cacheStates hndR key, hfil key]
    cases hA : mapGet st.activeCaches key with
    | none => rfl
    | some c =>
        by_cases hout : evictTest minI maxI minJ maxJ (key, c) = true
        · simp only [hout, if_true]
        · simp only [Bool.not_eq_true] at hout
          simp [hout]

/-- The player cell the update computes from a position. -/
def playerCellOf (pos : LatLng) : Cell :=
  ⟨⌊(pos.lat - NULL_ISLAND.lat) / TILE_DEGREES⌋,
    ⌊(pos.lng - NULL_ISLAND.lng) / TILE_DEGREES⌋⟩

/-- The window cell pairs the update iterates, in loop order. -/
def windowList (pos : LatLng) (R : Nat) : List (Int × Int) :=
  prodList (intRange ((playerCellOf pos).i - R) ((playerCellOf pos).i + R))
           (intRange ((playerCellOf pos).j - R) ((playerCellOf pos).j + R))

/-- The eviction test of the update: the cell indices fall outside the
window bounds. -/
def outsideWindow (pos : LatLng) (R : Nat) (c : Cell) : Bool :=
  c.i < (playerCellOf pos).i - R || c.i > (playerCellOf pos).i + R ||
  c.j < (playerCellOf pos).j - R || c.j > (playerCellOf pos).j + R

theorem mem_windowList {pos : LatLng} {R : Nat} {ij : Int × Int} :
    ij ∈ windowList pos R ↔
      ((playerCellOf pos).i - R ≤ ij.1 ∧ ij.1 ≤ (playerCellOf pos).i + R ∧
       (playerCellOf pos).j - R ≤ ij.2 ∧ ij.2 ≤ (playerCellOf pos).j + R) := by
  rw [windowList, mem_prodList, mem_intRange, mem_intRange]
  tauto

theorem windowList_keys_nodup (pos : LatLng) (R : Nat) :
    ((windowList pos R).map pairKey).Nodup :=
  prodList_keys_nodup (intRange_nodup _ _) (intRange_nodup _ _)

theorem outsideWindow_mem {pos : LatLng} {R : Nat} {i j : Int} :
    outsideWindow pos R ⟨i, j⟩ = false ↔ (i, j) ∈ windowList pos R := by
  rw [mem_windowList, outsideWindow]
  simp only [Bool.or_eq_false_iff, decide_eq_false_iff_not, not_lt]
  omega

theorem getCellForPoint_wf {b : Board} (pos : LatLng) (hb : BoardWF b) :
    (getCellForPoint b pos).1 = playerCellOf pos ∧
      BoardWF (getCellForPoint b pos).2 := by
  rw [getCellForPoint]
  exact getCanonicalCell_wf _ hb

theorem updateVisibleCaches_spec (luck : String → Rat) (st : CMState) (pos : LatLng)
    (R : Nat) (hb : BoardWF st.board)
    (hMem : ∀ e ∈ st.cacheStates, (fromMomento e.2).isSome = true)
    (hnd : (st.activeCaches.map Prod.fst).Nodup) :
    (updateVisibleCaches luck st pos R).2 = none ∧
    ((updateVisibleCaches luck st pos R).1.activeCaches.map Prod.fst).Nodup ∧
    (∀ ij ∈ windowList pos R,
      mapGet (updateVisibleCaches luck st pos R).1.activeCaches (pairKey ij) =
        (match loopOutcome luck st ij with
         | some c => if outsideWindow pos R c.cell then none else some c
         | none => none) ∧
      mapGet (updateVisibleCaches luck st pos R).1.cacheStates (pairKey ij) =
        (match loopOutcome luck st ij with
         | some c => if outsideWindow pos R c.cell then some (toMomento c)
                     else mapGet st.cacheStates (pairKey ij)
         | none => mapGet st.cacheStates (pairKey ij))) ∧
    (∀ key, key ∉ (windowList pos R).map pairKey →
      mapGet (updateVisibleCaches luck st pos R).1.activeCaches key =
        (match mapGet st.activeCaches key with
         | some c => if outsideWindow pos R c.cell then none else some c
         | none => none) ∧
      mapGet (updateVisibleCaches luck st pos R).1.cacheStates key =
        (match mapGet st.activeCaches key with
         | some c => if outsideWindow pos R c.cell then some (toMomento c)
                     else mapGet st.cacheStates key
         | none => mapGet st.cacheStates key)) := by
  obtain ⟨hpc, hb0⟩ := getCellForPoint_wf pos hb
  have hAA := activateAll_spec luck (windowList pos R)
    { st with board := (getCellForPoint st.board pos).2 }
    hb0 hMem hnd (windowList_keys_nodup pos R)
  obtain ⟨a1, a2, a3, a4, a5, a6⟩ := hAA
  have hpair : activateAll luck (windowList pos R)
      { st with board := (getCellForPoint st.board pos).2 } =
      ((activateAll luck (windowList pos R)
        { st with board := (getCellForPoint st.board pos).2 }).1, none) := by
    rw [← a1]
  have hfinal : updateVisibleCaches luck st pos R =
      (evictOutside
        ((activateAll luck (windowList pos R)
          { st with board := (getCellForPoint st.board pos).2 }).1)
        ((playerCellOf pos).i - R) ((playerCellOf pos).i + R)
        ((playerCellOf pos).j - R) ((playerCellOf pos).j + R), none) := by
    rw [updateVisibleCaches]
    simp only [hpc]
    rw [show (prodList
        (intRange ((playerCellOf pos).i - R) ((playerCellOf pos).i + R))
        (intRange ((playerCellOf pos).j - R) ((playerCellOf pos).j + R)))
      = windowList pos R from rfl]
    rw [hpair]
  obtain ⟨e1, e2, e3⟩ := evictOutside_spec
    ((activateAll luck (windowList pos R)
      { st with board := (getCellForPoint st.board pos).2 }).1)
    ((playerCellOf pos).i - R) ((playerCellOf pos).i + R)
    ((playerCellOf pos).j - R) ((playerCellOf pos).j + R) a4
  refine ⟨by rw [hfinal], by rw [hfinal]; exact e2, ?_, ?_⟩
  · intro ij hij
    have h6 := a6 ij hij
    obtain ⟨g1, g2⟩ := e3 (pairKey ij)
    constructor
    · rw [hfinal]
      show mapGet (evictOutside _ _ _ _ _).activeCaches _ = _
      rw [g1, h6]
      rfl
    · rw [hfinal]
      show mapGet (evictOutside _ _ _ _ _).cacheStates _ = _
      rw [g2, h6, a2]
      rfl
  · intro key hkey
    have h5 := a5 key hkey
    obtain ⟨g1, g2⟩ := e3 key
    constructor
    · rw [hfinal]
      show mapGet (evictOutside _ _ _ _ _).activeCaches _ = _
      rw [g1, h5]
      rfl
    · rw [hfinal]
      show mapGet (evictOutside _ _ _ _ _).cacheStates _ = _
      rw [g2, h5, a2]
      rfl

/-! ### Claim theorems: the visibility window. -/

/-- C1: from any state satisfying the reachable-state invariants (map keys
match cache cells, every stored memento decodes to a cache stored under its
own cell key, every active cache came from a memento or from generation),
updateVisibleCaches completes and leaves as active exactly the keys of
window cells that have a stored memento or for which generation yields a
cache; every previously active cache outside the window is serialized into
the dormant store and dropped from the active set; window cells where
generation yields nothing get no entry. -/
theorem claim1_window_correctness (luck : String → Rat) (st : CMState)
    (pos : LatLng) (R : Nat)
    (hb : BoardWF st.board)
    (hnd : (st.activeCaches.map Prod.fst).Nodup)
    (hA : ∀ e ∈ st.activeCaches, e.1 = cellKey e.2.cell)
    (hMem : ∀ e ∈ st.cacheStates, ∃ d, fromMomento e.2 = some d ∧ e.1 = cellKey d.cell)
    (hAsrc : ∀ e ∈ st.activeCaches,
        mapHas st.cacheStates e.1 = true ∨ (generateCache luck e.2.cell).isSome = true) :
    (updateVisibleCaches luck st pos R).2 = none ∧
    (∀ key, mapHas (updateVisibleCaches luck st pos R).1.activeCaches key = true ↔
        ∃ c : Cell, key = cellKey c ∧ outsideWindow pos R c = false ∧
          (mapHas st.cacheStates key = true ∨ (generateCache luck c).isSome = true)) ∧
    (∀ e ∈ st.activeCaches, outsideWindow pos R e.2.cell = true →
        mapGet (updateVisibleCaches luck st pos R).1.cacheStates e.1 =
          some (toMomento e.2) ∧
        mapHas (updateVisibleCaches luck st pos R).1.activeCaches e.1 = false) := by
  have hMemDec : ∀ e ∈ st.cacheStates, (fromMomento e.2).isSome = true := by
    intro e he
    obtain ⟨d, hd, _⟩ := hMem e he
    rw [hd]
    rfl
  obtain ⟨u1, u2, u3, u4⟩ := updateVisibleCaches_spec luck st pos R hb hMemDec hnd
  refine ⟨u1, ?_, ?_⟩
  · intro key
    by_cases hw : ∃ ij ∈ windowList pos R, pairKey ij = key
    · obtain ⟨ij, hij, rfl⟩ := hw
      have hget := (u3 ij hij).1
      have hijwin : outsideWindow pos R ⟨ij.1, ij.2⟩ = false := by
        rw [outsideWindow_mem]
        exact hij
      rw [mapHas, hget, loopOutcome]
      by_cases hhas : mapHas st.activeCaches (pairKey ij) = true
      · rw [if_pos hhas]
        rw [mapHas] at hhas
        obtain ⟨c, hc⟩ := Option.isSome_iff_exists.mp hhas
        have hmemc := mapGet_mem hc
        have hck := hA _ hmemc
        dsimp only at hck
        have hcell : c.cell = ⟨ij.1, ij.2⟩ :=
          cellKey_injective (by rw [← hck]; rfl)
        simp only [hc, hcell, hijwin, Bool.false_eq_true, if_false]
        refine iff_of_true rfl ⟨⟨ij.1, ij.2⟩, rfl, hijwin, ?_⟩
        rcases hAsrc _ hmemc with hsrc | hsrc
        · exact Or.inl hsrc
        · rw [hcell] at hsrc
          exact Or.inr hsrc
      · rw [if_neg hhas]
        cases hm : mapGet st.cacheStates (pairKey ij) with
        | some m =>
            obtain ⟨d, hd, hdk⟩ := hMem _ (mapGet_mem hm)
            dsimp only at hd hdk
            have hdcell : d.cell = ⟨ij.1, ij.2⟩ :=
              cellKey_injective (by rw [← hdk]; rfl)
            simp only [hd, hdcell, hijwin, Bool.false_eq_true, if_false]
            refine iff_of_true rfl ⟨⟨ij.1, ij.2⟩, rfl, hijwin, Or.inl ?_⟩
            rw [mapHas, hm]
            rfl
        | none =>
            cases hg : generateCache luck ⟨ij.1, ij.2⟩ with
            | some g =>
                have hgcell : g.cell = ⟨ij.1, ij.2⟩ := generateCache_cell hg
                simp only [hg, hgcell, hijwin, Bool.false_eq_true, if_false]
                refine iff_of_true rfl ⟨⟨ij.1, ij.2⟩, rfl, hijwin, Or.inr ?_⟩
                rw [hg]
                rfl
            | none =>
                refine iff_of_false (by simp) ?_
                rintro ⟨c, hkey, hcwin, hsrc⟩
                have hcc : c = ⟨ij.1, ij.2⟩ := cellKey_injective (by rw [← hkey]; rfl)
                rcases hsrc with hsrc | hsrc
                · rw [mapHas, hm] at hsrc
                  simp at hsrc
                · rw [hcc, hg] at hsrc
                  simp at hsrc
    · have hget := (u4 key (fun hh => by
        obtain ⟨ij, hij, hk⟩ := List.mem_map.mp hh
        exact hw ⟨ij, hij, hk⟩)).1
      rw [mapHas, hget]
      cases hc : mapGet st.activeCaches key with
      | some c =>
          have hck := hA _ (mapGet_mem hc)
          dsimp only at hck
          have hout : outsideWindow pos R c.cell = true := by
            cases houtc : outsideWindow pos R c.cell with
            | true => rfl
            | false =>
                exfalso
                apply hw
                refine ⟨(c.cell.i, c.cell.j), ?_, ?_⟩
                · rw [← outsideWindow_mem]
                  rw [show (⟨c.cell.i, c.cell.j⟩ : Cell) = c.cell from rfl]
                  exact houtc
                · rw [hck]
                  rfl
          simp only [hout, if_true]
          refine iff_of_false (by simp) ?_
          rintro ⟨c', hkey, hcwin, hsrc⟩
          have hcc : c' = c.cell := cellKey_injective (by rw [← hkey, hck])
          rw [hcc, hout] at hcwin
          simp at hcwin
      | none =>
          refine iff_of_false (by simp) ?_
          rintro ⟨c', hkey, hcwin, hsrc⟩
          apply hw
          refine ⟨(c'.i, c'.j), ?_, ?_⟩
          · rw [← outsideWindow_mem]
            rw [show (⟨c'.i, c'.j⟩ : Cell) = c' from rfl]
            exact hcwin
          · rw [hkey]
            rfl
  · intro e he hout
    have hknw : e.1 ∉ (windowList pos R).map pairKey := by
      intro hh
      obtain ⟨ij, hij, hk⟩ := List.mem_map.mp hh
      have hck := hA _ he
      have hcell : e.2.cell = ⟨ij.1, ij.2⟩ := by
        apply cellKey_injective
        rw [← hck]
        exact hk.symm
      have hwinij : outsideWindow pos R ⟨ij.1, ij.2⟩ = false :=
        outsideWindow_mem.mpr hij
      rw [hcell, hwinij] at hout
      simp at hout
    obtain ⟨g1e, g2e⟩ := u4 e.1 hknw
    have hgete : mapGet st.activeCaches e.1 = some e.2 := mem_mapGet hnd he
    constructor
    · rw [g2e, hgete]
      simp only [hout, if_true]
    · rw [mapHas, g1e, hgete]
      simp only [hout, if_true]
      rfl

/-- The empty manager state: nothing interned, no mementos, no actives. -/
def stEmpty : CMState := ⟨⟨[]⟩, [], []⟩

/-- A position in the middle of the origin cell. -/
def posOrigin : LatLng := ⟨1 / 20000, 1 / 20000⟩

/-- Witness for C1: from the empty state at the origin with radius 0, the
generated cache at (0,0) is active after the update. -/
theorem claim1_window_correctness_witness :
    mapHas (updateVisibleCaches luckDemo stEmpty posOrigin 0).1.activeCaches
      "0,0" = true :=
  ((claim1_window_correctness luckDemo stEmpty posOrigin 0
      (by intro e he; simp [stEmpty] at he)
      (by simp [stEmpty])
      (by intro e he; simp [stEmpty] at he)
      (by intro e he; simp [stEmpty] at he)
      (by intro e he; simp [stEmpty] at he)).2.1 "0,0").mpr
    ⟨⟨0, 0⟩, by decide, by with_unfolding_all decide,
      Or.inr (by with_unfolding_all decide)⟩

/-- C3: whenever a cell whose key has a decodable memento in the dormant
store re-enters the window while not active, the update restores exactly
the memento content for every generator function (so the generator is never
consulted for that cell and the content cannot reset), the key remains in
the dormant store, and no update ever removes a key from the dormant
store. -/
theorem claim3_memento_precedence (luck : String → Rat) (st : CMState)
    (pos : LatLng) (R : Nat) (key : String) (m : String) (d : Cache)
    (hb : BoardWF st.board)
    (hnd : (st.activeCaches.map Prod.fst).Nodup)
    (hMemDec : ∀ e ∈ st.cacheStates, (fromMomento e.2).isSome = true)
    (hkeyd : key = cellKey d.cell)
    (hm : mapGet st.cacheStates key = some m)
    (hd : fromMomento m = some d)
    (hwin : outsideWindow pos R d.cell = false)
    (hnact : mapHas st.activeCaches key = false) :
    mapGet (updateVisibleCaches luck st pos R).1.activeCaches key = some d ∧
    mapHas (updateVisibleCaches luck st pos R).1.cacheStates key = true ∧
    (∀ k, mapHas st.cacheStates k = true →
        mapHas (updateVisibleCaches luck st pos R).1.cacheStates k = true) := by
  obtain ⟨u1, u2, u3, u4⟩ := updateVisibleCaches_spec luck st pos R hb hMemDec hnd
  have hij : (d.cell.i, d.cell.j) ∈ windowList pos R := by
    rw [← outsideWindow_mem]
    rw [show (⟨d.cell.i, d.cell.j⟩ : Cell) = d.cell from rfl]
    exact hwin
  have hkeyeq : pairKey (d.cell.i, d.cell.j) = key := by
    rw [hkeyd]
    rfl
  have hlo : loopOutcome luck st (d.cell.i, d.cell.j) = some d := by
    rw [loopOutcome, hkeyeq]
    simp only [hnact, Bool.false_eq_true, if_false, hm, hd]
  obtain ⟨g1, g2⟩ := u3 (d.cell.i, d.cell.j) hij
  rw [hkeyeq] at g1 g2
  refine ⟨?_, ?_, ?_⟩
  · rw [g1]
    simp only [hlo]
    simp only [hwin, Bool.false_eq_true, if_false]
  · rw [mapHas, g2]
    simp only [hlo]
    simp only [hwin, Bool.false_eq_true, if_false, hm]
    rfl
  · intro k hk
    rw [mapHas]
    by_cases hw : ∃ ij ∈ windowList pos R, pairKey ij = k
    · obtain ⟨ij, hij', rfl⟩ := hw
      rw [(u3 ij hij').2]
      cases hlo' : loopOutcome luck st ij with
      | some c =>
          cases hoc : outsideWindow pos R c.cell with
          | true =>
              simp only [hoc, if_true]
              rfl
          | false =>
              simp only [hoc, Bool.false_eq_true, if_false]
              exact hk
      | none => exact hk
    · have hknw : k ∉ (windowList pos R).map pairKey := by
        intro hh
        obtain ⟨ij, hij', hkk⟩ := List.mem_map.mp hh
        exact hw ⟨ij, hij', hkk⟩
      rw [(u4 k hknw).2]
      cases hc : mapGet st.activeCaches k with
      | some c =>
          cases hoc : outsideWindow pos R c.cell with
          | true =>
              simp only [hoc, if_true]
              rfl
          | false =>
              simp only [hoc, Bool.false_eq_true, if_false]
              exact hk
      | none => exact hk

/-- A manager state holding one dormant memento for an emptied cache at
(0,0). -/
def stC3 : CMState := ⟨⟨[]⟩, [("0,0", toMomento ⟨⟨0, 0⟩, []⟩)], []⟩

/-- Witness for C3: the emptied cache at (0,0) is restored from its memento
(0 coins) even though generation would produce 3 coins there. -/
theorem claim3_memento_precedence_witness :
    mapGet (updateVisibleCaches luckDemo stC3 posOrigin 0).1.activeCaches "0,0"
      = some ⟨⟨0, 0⟩, []⟩ ∧
    mapHas (updateVisibleCaches luckDemo stC3 posOrigin 0).1.cacheStates "0,0" = true :=
  ((fun T => ⟨T.1, T.2.1⟩ :
      (mapGet (updateVisibleCaches luckDemo stC3 posOrigin 0).1.activeCaches "0,0"
          = some ⟨⟨0, 0⟩, []⟩ ∧
        mapHas (updateVisibleCaches luckDemo stC3 posOrigin 0).1.cacheStates "0,0" = true ∧
        (∀ k, mapHas stC3.cacheStates k = true →
          mapHas (updateVisibleCaches luckDemo stC3 posOrigin 0).1.cacheStates k = true)) →
      _)
    (claim3_memento_precedence luckDemo stC3 posOrigin 0 "0,0"
      (toMomento ⟨⟨0, 0⟩, []⟩) ⟨⟨0, 0⟩, []⟩
      (by intro e he; simp [stC3] at he)
      (by simp [stC3])
      (by
        intro e he
        simp only [stC3, List.mem_singleton] at he
        rw [he]
        show (fromMomento (toMomento ⟨⟨0, 0⟩, []⟩)).isSome = true
        rw [fromMomento_toMomento]
        rfl)
      (by decide)
      rfl
      (fromMomento_toMomento _)
      (by with_unfolding_all decide)
      rfl))

/-- A manager state whose dormant store holds an undecodable memento for
(0,0). -/
def stC7 : CMState := ⟨⟨[]⟩, [("0,0", "garbage")], []⟩

/-- A generator that spawns a cache at (1,1) only. -/
def luckC7 : String → Rat := fun s => if s = "1,1" then 0 else 1 / 2

/-- C7 evaluated at the failing input: with an undecodable memento stored
for (0,0) and the player at the origin with radius 1, the visibility update
throws (JSON.parse SyntaxError) instead of falling back to generation, and
the later window cell (1,1) — for which generation would produce a cache —
is never activated: one corrupted entry aborts the whole update. -/
theorem claim7_corrupt_memento_aborts :
    (updateVisibleCaches luckC7 stC7 posOrigin 1).2 = some "SyntaxError" ∧
    (generateCache luckC7 ⟨1, 1⟩).isSome = true ∧
    mapHas (updateVisibleCaches luckC7 stC7 posOrigin 1).1.activeCaches
      (cellKey ⟨1, 1⟩) = false := by
  refine ⟨?_, ?_, ?_⟩ <;> with_unfolding_all decide

/-- C10: when the update restores a dormant cache, the restored cache
carries the cell parsed out of the memento string (fromMomento overwrites
the cell field), not the canonical interned cell of the loop; the
subsequent eviction decision reads exactly the stored numeric indices: the
restored cache stays active precisely when the parsed cell passes the
numeric window test, and is evicted (and re-serialized) when it fails it,
regardless of the key it is stored under. -/
theorem claim10_restored_cell_from_parse (luck : String → Rat) (st : CMState)
    (pos : LatLng) (R : Nat) (i j : Int) (m : String) (d : Cache)
    (hb : BoardWF st.board)
    (hnd : (st.activeCaches.map Prod.fst).Nodup)
    (hMemDec : ∀ e ∈ st.cacheStates, (fromMomento e.2).isSome = true)
    (hwin : (i, j) ∈ windowList pos R)
    (hnact : mapHas st.activeCaches (cellKey ⟨i, j⟩) = false)
    (hm : mapGet st.cacheStates (cellKey ⟨i, j⟩) = some m)
    (hd : fromMomento m = some d) :
    (outsideWindow pos R d.cell = false →
        mapGet (updateVisibleCaches luck st pos R).1.activeCaches (cellKey ⟨i, j⟩)
          = some d) ∧
    (outsideWindow pos R d.cell = true →
        mapHas (updateVisibleCaches luck st pos R).1.activeCaches (cellKey ⟨i, j⟩)
            = false ∧
        mapGet (updateVisibleCaches luck st pos R).1.cacheStates (cellKey ⟨i, j⟩)
          = some (toMomento d)) := by
  obtain ⟨u1, u2, u3, u4⟩ := updateVisibleCaches_spec luck st pos R hb hMemDec hnd
  have hlo : loopOutcome luck st (i, j) = some d := by
    rw [loopOutcome]
    show (if mapHas st.activeCaches (cellKey ⟨i, j⟩) = true then _ else _) = _
    simp only [hnact, Bool.false_eq_true, if_false]
    show (match mapGet st.cacheStates (cellKey ⟨i, j⟩) with
          | some m => fromMomento m
          | none => generateCache luck ⟨i, j⟩) = _
    simp only [hm, hd]
  obtain ⟨g1, g2⟩ := u3 (i, j) hwin
  have hpk : pairKey (i, j) = cellKey ⟨i, j⟩ := rfl
  rw [hpk] at g1 g2
  constructor
  · intro hout
    rw [g1]
    simp only [hlo, hout, Bool.false_eq_true, if_false]
  · intro hout
    constructor
    · rw [mapHas, g1]
      simp only [hlo, hout, if_true]
      rfl
    · rw [g2]
      simp only [hlo, hout, if_true]

/-- A manager state whose memento under key 0,0 encodes a cache whose own
cell is (5,5). -/
def stC10 : CMState := ⟨⟨[]⟩, [("0,0", toMomento ⟨⟨5, 5⟩, []⟩)], []⟩

/-- Witness for C10: the memento under key 0,0 decodes to a cache at (5,5);
restored during an update whose window is the single cell (0,0), the cache
fails the numeric window test on its stored indices and is immediately
evicted and re-serialized. -/
theorem claim10_restored_cell_from_parse_witness :
    mapHas (updateVisibleCaches luckDemo stC10 posOrigin 0).1.activeCaches
        (cellKey ⟨0, 0⟩) = false ∧
    mapGet (updateVisibleCaches luckDemo stC10 posOrigin 0).1.cacheStates
        (cellKey ⟨0, 0⟩) = some (toMomento ⟨⟨5, 5⟩, []⟩) :=
  (claim10_restored_cell_from_parse luckDemo stC10 posOrigin 0 0 0
      (toMomento ⟨⟨5, 5⟩, []⟩) ⟨⟨5, 5⟩, []⟩
      (by intro e he; simp [stC10] at he)
      (by simp [stC10])
      (by
        intro e he
        simp only [stC10, List.mem_singleton] at he
        rw [he]
        show (fromMomento (toMomento ⟨⟨5, 5⟩, []⟩)).isSome = true
        rw [fromMomento_toMomento]
        rfl)
      (by with_unfolding_all decide)
      rfl
      rfl
      (fromMomento_toMomento _)).2
    (by with_unfolding_all decide)
